import Mathlib

/-!
Verification of the static-site generator in `src/source/app.tsx`: the
description-rewriting step (`parseDescription` / `downloadImage`), the
page-writing orchestration (`generateSite`) and the completion tracking in
`SitePicker`, modelled as executable Lean definitions plus an explicit
event-loop run model.
-/

namespace Shortcut

/-- Remote media host against which `parseDescription` tests image URLs
(`src.startsWith("https://media.app.shortcut.com/")`). -/
def mediaHost : List Char := "https://media.app.shortcut.com/".data

/-- Characters after the last occurrence of `sep` (the whole list when `sep` is
absent); helper for modelling Node `path.parse`, which takes the basename after
the last slash. -/
def afterLast (sep : Char) (l : List Char) : List Char :=
  (l.reverse.takeWhile (fun c => c ≠ sep)).reverse

/-- Model of Node `path.parse(url).ext`: the suffix of the basename (text after
the last `/`) starting at its last dot; empty when the basename has no dot or
only a leading dot. For the single degenerate basename `..` this gives `.`
where Node gives the empty ext; no theorem rests on that input. -/
def extOf (url : List Char) : List Char :=
  let base := afterLast '/' url
  if base.contains '.' then
    let tail := base.reverse.takeWhile (fun c => c ≠ '.')
    if tail.length + 1 < base.length then '.' :: tail.reverse else []
  else []

/-- Lowercase hex digit for `n < 16`, as produced by Node
`Buffer.toString("hex")`. -/
def hexDigit (n : Nat) : Char :=
  if n < 10 then Char.ofNat (48 + n) else Char.ofNat (87 + n)

/-- Two lowercase hex digits of one byte. -/
def hexByte (b : Nat) : List Char := [hexDigit (b / 16), hexDigit (b % 16)]

/-- Model of `crypto.randomBytes(16).toString("hex")` applied to a list of
bytes: two lowercase hex digits per byte. -/
def hexOfBytes (bs : List Nat) : List Char := bs.flatMap hexByte

/-- One ImageJob record (`site.images` entry in the code): source URL and the
generated local filename. The completion promise is represented by the run
model's `jobSettled` events. -/
structure Job where
  url : List Char
  filename : List Char
deriving Repr, DecidableEq

/-- One match of the image-reference pattern `!\[(.*)\]\((.+)\)` performed by
`parseDescription`, recording the alt text, the source URL, and the exact text
the match was rewritten to (identical to the match when the URL is not on the
remote media host). -/
structure ImgMatch where
  alt : List Char
  src : List Char
  out : List Char
deriving Repr, DecidableEq

/-- Observable events of one generation run, in program order: file-system
operations, promise resolution of `generateSite`, image-job lifecycle, and the
completion signal of the surrounding UI (`setIsDone(true)`). -/
inductive Ev where
  | mkdirSites
  | rmSiteDir
  | mkdirSiteDir
  | writeHome (content : String)
  | resolveGenerate
  | mkdirEpic (eid : Nat)
  | writeEpic (eid : Nat) (content : String)
  | mkdirStory (eid sid : Nat)
  | writeStory (eid sid : Nat) (content : String)
  | ensureImgsDir
  | jobCreated (url filename : List Char)
  | writeImg (filename : List Char)
  | jobSettled (filename : List Char) (ok : Bool)
  | captureJobs (filenames : List (List Char))
  | doneSignal
deriving Repr, DecidableEq

/-- State threaded through rendering: the entropy counter (number of random
draws made so far in this run), the ImageJobs accumulated on the context
(`site.images`), the events emitted so far, and the record of pattern matches. -/
structure ScanSt where
  ctr : Nat
  jobs : List Job
  evs : List Ev
  ms : List ImgMatch
deriving Repr, DecidableEq

/-- Model of `downloadImage` (app.tsx lines 189-214): generates the local
filename from 16 random bytes rendered as hex concatenated with the URL's
extension, synchronously ensures the site's `imgs/` directory exists, starts
the asynchronous download (whose outcome is delivered later by the run model's
`jobSettled` event), appends the ImageJob to the context, and returns the
filename immediately. -/
def downloadImage (entropy : Nat → List Nat) (st : ScanSt) (url : List Char) :
    List Char × ScanSt :=
  let filename := hexOfBytes (entropy st.ctr) ++ extOf url
  (filename,
    { ctr := st.ctr + 1
      jobs := st.jobs ++ [⟨url, filename⟩]
      evs := st.evs ++ [Ev.ensureImgsDir, Ev.jobCreated url filename]
      ms := st.ms })

/-- Splits a line at its last closing parenthesis: `some (b, a)` with
`l = b ++ ')' :: a` and no `')'` in `a`; `none` when the line has no `')'`.
This is how the greedy `(.+)\)` tail of the image regex selects its closing
parenthesis: `.+` grabs the rest of the line and backtracks to the last `')'`. -/
def splitLastParen : List Char → Option (List Char × List Char)
  | [] => none
  | c :: r =>
    match splitLastParen r with
    | some (b, a) => some (c :: b, a)
    | none => if c = ')' then some ([], r) else none

/-- Splits at the last occurrence of `](` that is followed by at least one
character: `some (b, a)` with `l = b ++ ']' :: '(' :: a` and `a ≠ []`. This is
how the greedy `(.*)\]\(` part of the image regex selects the alt/src boundary,
the source having to be nonempty for `(.+)`. -/
def splitLastRef : List Char → Option (List Char × List Char)
  | [] => none
  | c :: r =>
    match splitLastRef r with
    | some (b, a) => some (c :: b, a)
    | none =>
      if c = ']' ∧ r.head? = some '(' ∧ 2 ≤ r.length then some ([], r.tail) else none

/-- Greedy match of `(.*)\]\((.+)\)` against the text following a `![`: the
closing parenthesis is the last `')'` of the line, the alt/src boundary the
last `](` before it leaving a nonempty source. Returns
`(alt, src, rest-after-match)`. -/
def matchTail (r : List Char) : Option (List Char × List Char × List Char) :=
  match splitLastParen r with
  | none => none
  | some (b, rest) =>
    match splitLastRef b with
    | none => none
    | some (alt, src) => some (alt, src, rest)

/-- Image-reference text `![alt](src)`. -/
def imgRef (alt src : List Char) : List Char :=
  '!' :: '[' :: alt ++ ']' :: '(' :: src ++ [')']

/-- Attempt to start a match at the current character: a match begins only on
`!` immediately followed by `[`, and then matches greedily via `matchTail` on
the text after the bracket pair. -/
def refAt (c : Char) (r : List Char) : Option (List Char × List Char × List Char) :=
  if c = '!' ∧ r.head? = some '[' then matchTail r.tail else none

/-- One pass of the global regex `/!\[(.*)\]\((.+)\)/gm` over one line, as
performed by `parseDescription` (app.tsx lines 217-227): at the leftmost `![`
admitting a match the line is split greedily into alt text and source URL; a
source starting with the remote media host is relocated through `downloadImage`
and rewritten to `![alt](/imgs/<filename>)`, any other match is reproduced
unchanged; scanning resumes after the match (when no match starts at a `![`,
the engine advances by one character). The fuel argument makes the recursion
structural; `scanLine` supplies enough fuel and `scanLineF_fuel` shows any
sufficient amount is equivalent. -/
def scanLineF (entropy : Nat → List Nat) : Nat → List Char → ScanSt → List Char × ScanSt
  | 0, l, st => (l, st)
  | _ + 1, [], st => ([], st)
  | fuel + 1, c :: r, st =>
    match refAt c r with
    | some (alt, src, rest) =>
      if mediaHost.isPrefixOf src then
        let p := downloadImage entropy st src
        let repl := imgRef alt ("/imgs/".data ++ p.1)
        let q := scanLineF entropy fuel rest
          { p.2 with ms := p.2.ms ++ [⟨alt, src, repl⟩] }
        (repl ++ q.1, q.2)
      else
        let repl := imgRef alt src
        let q := scanLineF entropy fuel rest
          { st with ms := st.ms ++ [⟨alt, src, repl⟩] }
        (repl ++ q.1, q.2)
    | none =>
      let q := scanLineF entropy fuel r st
      (c :: q.1, q.2)

/-- The scan of one line: the fuel `l.length + 1` strictly exceeds the number of
scanner steps (every step either consumes at least one character of the line or
jumps past a match, which is never empty), so the fuelled engine never runs
out; `scanLineF_fuel` below proves the fuel irrelevant. -/
def scanLine (entropy : Nat → List Nat) (l : List Char) (st : ScanSt) :
    List Char × ScanSt :=
  scanLineF entropy (l.length + 1) l st

/-- Replacement text for a relocated media match. -/
def mediaRepl (entropy : Nat → List Nat) (st : ScanSt) (alt src : List Char) :
    List Char :=
  imgRef alt ("/imgs/".data ++ (downloadImage entropy st src).1)

/-- Context state after relocating one media match: the download has been
started by `downloadImage` and the match record appended. -/
def mediaSt (entropy : Nat → List Nat) (st : ScanSt) (alt src : List Char) : ScanSt :=
  let p := downloadImage entropy st src
  { p.2 with ms := p.2.ms ++ [⟨alt, src, mediaRepl entropy st alt src⟩] }

/-- Context state after a non-media match: only the match record is appended. -/
def otherSt (st : ScanSt) (alt src : List Char) : ScanSt :=
  { st with ms := st.ms ++ [⟨alt, src, imgRef alt src⟩] }

/-- Event pair emitted by `downloadImage` for each created job, in job order. -/
def jobEvs (js : List Job) : List Ev :=
  js.flatMap (fun jb => [Ev.ensureImgsDir, Ev.jobCreated jb.url jb.filename])

/-- Lines of a description. The image pattern cannot match across a newline
(`.` does not match `\n`), so the global replace of `parseDescription` acts
line by line. -/
def splitLines : List Char → List (List Char)
  | [] => [[]]
  | c :: r =>
    if c = '\n' then [] :: splitLines r
    else
      match splitLines r with
      | [] => [[c]]
      | x :: xs => (c :: x) :: xs

/-- Reassembles lines with newline separators. -/
def joinLines : List (List Char) → List Char
  | [] => []
  | [x] => x
  | x :: xs => x ++ '\n' :: joinLines xs

/-- Applies the line scanner to every line in order, threading the context. -/
def scanLines (entropy : Nat → List Nat) :
    List (List Char) → ScanSt → List (List Char) × ScanSt
  | [], st => ([], st)
  | x :: xs, st =>
    let p := scanLine entropy x st
    let q := scanLines entropy xs p.2
    (p.1 :: q.1, q.2)

/-- Modelled from the spec: the markdown-to-HTML conversion `marked.parse` is an
external library, described by the spec only as "a standard rich-text-to-HTML
transform" whose output is inserted verbatim and embeds the already-substituted
markup with its URLs verbatim (spec section 4.2). It is modelled as the
transform that leaves the substituted markup unchanged; the properties verified
here concern only the occurrence of URLs and filename tokens in the output,
which such a transform preserves. -/
def markedParse (s : String) : String := s

/-- Model of `parseDescription` (app.tsx lines 216-230): performs the global
image-reference replacement on the description, relocating remote media images
through `downloadImage`, then converts the result via the markdown renderer.
Returns the rendered output and the updated context. -/
def parseDescription (entropy : Nat → List Nat) (desc : String) (st : ScanSt) :
    String × ScanSt :=
  let p := scanLines entropy (splitLines desc.data) st
  (markedParse (joinLines p.1).asString, p.2)

/-- Fresh per-run context state: zero random draws, empty image collection
(SitePicker builds the context as `{...sites[0], images: []}`). -/
def ScanSt.init : ScanSt := ⟨0, [], [], []⟩

/-- Lowercase hexadecimal alphabet: the shape of every character of a
`randomBytes(16).toString("hex")` stem. -/
def isHexChar (c : Char) : Bool :=
  (('0' ≤ c) && (c ≤ '9')) || (('a' ≤ c) && (c ≤ 'f'))

/-- Milestone (objective) record fetched by `getMilestone`. -/
structure MilestoneData where
  name : String
  description : String
deriving Repr, DecidableEq

/-- Story fields used by the generator (`listEpicStories` with
`includes_description: true`); the description is optional in the client's
story type, which is why the code guards it with `|| ""`. -/
structure StoryData where
  id : Nat
  name : String
  description : Option String
  created_at : String
  updated_at : Option String
deriving Repr, DecidableEq

/-- Epic fields used by the generator: the slim record from
`listMilestoneEpics` (id, name, timestamps) together with the full record's
description (`getEpic`, where description is a required string) and its
stories (`listEpicStories`); the remote client is an oracle serving these. -/
structure EpicData where
  id : Nat
  name : String
  description : String
  created_at : String
  updated_at : Option String
  stories : List StoryData
deriving Repr, DecidableEq

/-- One configured site (an entry of sites.json). -/
structure Site where
  apiKey : String
  name : String
  slug : String
  objectiveId : Nat
deriving Repr, DecidableEq

/-- The remote workspace contents served to one run. -/
structure RemoteData where
  milestone : MilestoneData
  epics : List EpicData
deriving Repr, DecidableEq

/-- One run's configuration: the site, the remote data, the entropy source
feeding `crypto.randomBytes`, the initial state of the `./sites` directory
tree, whether removing the existing site directory fails, and whether each
image URL's download succeeds. -/
structure Config where
  site : Site
  remote : RemoteData
  entropy : Nat → List Nat
  sitesDirExists : Bool
  siteDirExists : Bool
  rmFails : Bool
  imgOk : List Char → Bool

/-- JavaScript `a || b` on an optional string: absent and empty strings are
falsy. -/
def jsOr (a : Option String) (b : String) : String :=
  match a with
  | some s => if s = "" then b else s
  | none => b

/-- The fixed style block injected into every page (`getStyles`). -/
def getStyles : String :=
  "<style>\n" ++
  "\thtml \x7b\n" ++
  "\t\tfont-family: -apple-system, BlinkMacSystemFont, \x27Segoe UI\x27, \x27Roboto\x27, \x27Oxygen\x27, \x27Ubuntu\x27, \x27Cantarell\x27, \x27Fira Sans\x27, \x27Droid Sans\x27, \x27Helvetica Neue\x27, sans-serif;\n" ++
  "\t\tfont-size: 16px;\n" ++
  "\t\tline-height: 1.5;\n" ++
  "\t\t-webkit-font-smoothing: antialiased;\n" ++
  "\t\t-moz-osx-font-smoothing: grayscale;\n" ++
  "\t\x7d\n\n" ++
  "\tbody \x7b\n\t\tmargin: 0;\n\t\tpadding: 0;\n\t\x7d\n\n" ++
  "\theader \x7b\n\t\tbackground-color: #f5f5f5;\n\t\tpadding: 1rem;\n\t\x7d\n\n" ++
  "\tmain \x7b\n\t\tpadding: 1rem;\n\t\x7d\n\n" ++
  "\theader nav \x7b\n\t\tdisplay: flex;\n\t\tflex-direction: row;\n\t\tgap: 1rem;\n\t\x7d\n\n" ++
  "\tmain nav \x7b\n\t\tdisplay: flex;\n\t\tflex-direction: column;\n\t\tgap: 1rem;\n\t\x7d\n\n" ++
  "\tmain nav a::before \x7b\n\t\tcontent: \x27âœŽ \x27;\n\t\x7d\n\n" ++
  "\ttable \x7b\n\t\tborder: 1px solid #ccc;\n\t\tborder-collapse: collapse;\n\t\twidth: 100%;\n\t\x7d\n\n" ++
  "\ttbody tr:nth-child(odd) \x7b\n\t\tbackground-color: #f2f2f2;\n\t\x7d\n\n" ++
  "\ttd, th \x7b\n\t\tborder: 1px solid #ccc;\n\t\tpadding: 0.5rem;\n\t\ttext-align: left;\n\t\x7d\n\n" ++
  "\ta \x7b\n\t\ttext-decoration: none;\n\t\tcolor: inherit;\n\t\x7d\n\n" ++
  "\ta:hover \x7b\n\t\ttext-decoration: underline;\n\t\x7d\n\n" ++
  "\timg \x7b\n\t\tmax-width: 100%;\n\t\x7d\n\n" ++
  "\th1, h2 \x7b\n\t\tmargin: 0;\n\t\x7d\n\n" ++
  "</style>"

/-- Header navigation: one link per epic, concatenated with `join("")`. -/
def epicLinks (epics : List EpicData) : String :=
  String.join (epics.map (fun epic =>
    "<a href=\"/" ++ toString epic.id ++ "\">" ++ epic.name ++ "</a>"))

/-- Story navigation block body of an epic page. -/
def storyLinks (eid : Nat) (stories : List StoryData) : String :=
  String.join (stories.map (fun story =>
    "<a href=\"/" ++ toString eid ++ "/" ++ toString story.id ++ "\">" ++
      story.name ++ "</a>"))

/-- The home page document (app.tsx lines 318-340): the objective's raw
description is embedded without rendering. -/
def homeHtml (milestone : MilestoneData) (epics : List EpicData) : String :=
  "<!doctype html>\n<html>\n\t<head>\n\t\t<title>" ++ milestone.name ++
  " | Home</title>\n\t\t" ++ getStyles ++
  "\n\t</head>\n\t<body>\n\t<header>\n\t\t<nav>\n\t\t\t<a href=\"/\">Home</a>\n\t\t\t" ++
  epicLinks epics ++
  "\n\t\t</nav>\n\t\t</header>\n<main>\n\t\t<h1>" ++ milestone.name ++
  "</h1>\n\t\t<p>" ++ milestone.description ++
  "</p>\n\t\t</main>\n\t</body>\n</html>"

/-- An epic page document (app.tsx lines 350-378), with the already-rendered
description supplied by the caller; an epic with zero stories omits the
story-navigation block. -/
def epicHtml (site : Site) (epics : List EpicData) (epic : EpicData)
    (renderedDesc : String) : String :=
  "<!doctype html>\n\t<html>\n\t\t<head>\n\t\t\t<title>" ++ site.name ++ " | " ++
  epic.name ++ "</title>\n\t\t\t" ++ getStyles ++
  "\n\t\t</head>\n\t\t<body>\n\t\t<header>\n\t\t\t<nav>\n\t\t\t\t<a href=\"/\">Home</a>\n\t\t\t\t" ++
  epicLinks epics ++
  "\n\t\t\t</nav>\n\t\t\t</header>\n\t\t\t<main>\n\t\t\t<h2>" ++ epic.name ++
  "</h2>\n\t\t\t" ++ renderedDesc ++ "\n\t\t\t" ++
  (if epic.stories.isEmpty then "" else "<nav>") ++ "\n\t\t\t" ++
  storyLinks epic.id epic.stories ++ "\n\t\t\t" ++
  (if epic.stories.isEmpty then "" else "</nav>") ++
  "\n\t\t\t<small>Last updated: " ++ jsOr epic.updated_at epic.created_at ++
  "</small>\n\t\t\t</main>\n\t\t</body>\n\t</html>"

/-- A story page document (app.tsx lines 382-405), with the already-rendered
description supplied by the caller. -/
def storyHtml (site : Site) (epics : List EpicData) (epic : EpicData)
    (story : StoryData) (renderedDesc : String) : String :=
  "<!doctype html>\n\t\t\t\t<html>\n\t\t\t\t\t<head>\n\t\t\t\t\t\t<title>" ++
  site.name ++ " | " ++ epic.name ++ " | " ++ story.name ++
  "</title>\n\t\t\t\t\t\t" ++ getStyles ++
  "\n\t\t\t\t\t</head>\n\t\t\t\t<body>\n\t\t\t\t<header>\n\t\t\t\t\t<nav>\n\t\t\t\t\t\t<a href=\"/\">Home</a>\n\t\t\t\t\t\t" ++
  epicLinks epics ++
  "\n\t\t\t\t\t</nav></header>\n\t\t\t\t\t<main>\n\t\t\t\t\t<a href=\"/" ++
  toString epic.id ++ "\">&larr; Back</a>\n\t\t\t\t\t<h2>" ++ story.name ++
  "</h2>\n\t\t\t\t\t<small>" ++ jsOr story.updated_at story.created_at ++
  "</small>\n\t\t\t\t\t" ++ renderedDesc ++
  "\n\t\t\t\t\t</main>\n\t\t\t\t</body>\n\t\t\t</html>"

/-- Appends one observable event to the trace carried by the scan state. -/
def emit (sc : ScanSt) (e : Ev) : ScanSt :=
  { sc with evs := sc.evs ++ [e] }

/-- One story's writes inside an epic's callback (app.tsx lines 380-406):
create the story's directory, render its description — `story.description`
guarded by `|| ""` — and write the story page. -/
def storyStep (cfg : Config) (epic : EpicData) (acc : ScanSt) (story : StoryData) :
    ScanSt :=
  let acc1 := emit acc (Ev.mkdirStory epic.id story.id)
  let rendered2 := parseDescription cfg.entropy (jsOr story.description "") acc1
  emit rendered2.2
    (Ev.writeStory epic.id story.id
      (storyHtml cfg.site cfg.remote.epics epic story rendered2.1))

/-- The synchronous segment run when one epic's two fetches have resolved
(app.tsx lines 342-407 inside the `forEach` callback): create the epic's
directory, render its description (which starts image downloads), write the
epic page, then for each story create its directory, render its description
and write its page — all without suspending. -/
def epicSegment (cfg : Config) (epic : EpicData) (sc : ScanSt) : ScanSt :=
  let sc1 := emit sc (Ev.mkdirEpic epic.id)
  let rendered := parseDescription cfg.entropy epic.description sc1
  let sc2 := emit rendered.2
    (Ev.writeEpic epic.id (epicHtml cfg.site cfg.remote.epics epic rendered.1))
  epic.stories.foldl (storyStep cfg epic) sc2

/-- Run state of one generation: the scan state holds the entropy counter, the
context's ImageJob collection (`context.images`) and the full event trace in
program order; the rest tracks which epic subtrees have run, which downloads
have settled, the UI completion flag, and whether `generateSite` rejected. -/
structure St where
  sc : ScanSt
  ranEpics : List Nat
  settled : List Nat
  isDone : Bool
  genErr : Bool

/-- The deterministic prefix of every run (app.tsx lines 306-341 and 443-455):
the main task fetches the milestone and its epics, sets up the output
directories (aborting if the removal of an existing site directory fails),
writes the home page, launches the per-epic callbacks — each of which suspends
at its first fetch — and resolves `generateSite`'s promise. The `await`
continuation in `onConfirm` then runs before any network response can be
delivered: it snapshots `context.images` (still empty), `Promise.all` of an
empty list settles at once, `setIsDone(true)` fires and the collection is
reset. -/
def runGen (cfg : Config) : St :=
  let sc0 := ScanSt.init
  let sc1 := if cfg.sitesDirExists then sc0 else emit sc0 Ev.mkdirSites
  if cfg.siteDirExists ∧ cfg.rmFails then
    { sc := emit sc1 Ev.rmSiteDir
      ranEpics := []
      settled := []
      isDone := false
      genErr := true }
  else
    let sc2 := if cfg.siteDirExists then emit sc1 Ev.rmSiteDir else sc1
    let sc3 := emit sc2 Ev.mkdirSiteDir
    let sc4 := emit sc3 (Ev.writeHome (homeHtml cfg.remote.milestone cfg.remote.epics))
    let sc5 := emit sc4 Ev.resolveGenerate
    let sc6 := emit sc5 (Ev.captureJobs (sc5.jobs.map Job.filename))
    let sc7 := emit { sc6 with jobs := [] } Ev.doneSignal
    { sc := sc7
      ranEpics := []
      settled := []
      isDone := true
      genErr := false }

/-- Scheduler labels for the nondeterministic part of a run: deliver the
network responses of epic subtree `i` and run its synchronous segment, or
deliver the network outcome of download `j` and run its continuation. -/
inductive SchedLabel where
  | runEpic (i : Nat)
  | runDownload (j : Nat)
deriving Repr, DecidableEq

/-- One scheduler step. An epic subtree runs at most once and only when
`generateSite` did not reject (its callbacks were then never launched); a
download continuation runs at most once per created job: on success it writes
the image file and resolves the job's promise, on failure the catch block
swallows the error and the promise still resolves. -/
def stepRun (cfg : Config) (st : St) : SchedLabel → St
  | SchedLabel.runEpic i =>
    if st.genErr then st
    else if i ∈ st.ranEpics then st
    else
      match cfg.remote.epics.get? i with
      | none => st
      | some epic =>
        { st with sc := epicSegment cfg epic st.sc, ranEpics := st.ranEpics ++ [i] }
  | SchedLabel.runDownload j =>
    if j ∈ st.settled then st
    else
      match st.sc.jobs.get? j with
      | none => st
      | some jb =>
        if cfg.imgOk jb.url then
          { st with
            sc := emit (emit st.sc (Ev.writeImg jb.filename))
              (Ev.jobSettled jb.filename true)
            settled := st.settled ++ [j] }
        else
          { st with
            sc := emit st.sc (Ev.jobSettled jb.filename false)
            settled := st.settled ++ [j] }

/-- A complete run: the deterministic prefix followed by any interleaving of
epic subtrees and download continuations. -/
def runApp (cfg : Config) (sched : List SchedLabel) : St :=
  sched.foldl (stepRun cfg) (runGen cfg)

/-- The observable trace of a run state. -/
def St.trace (st : St) : List Ev :=
  st.sc.evs

/-- Event classifiers used to state trace-ordering properties. -/
def Ev.isDoneSignal : Ev → Bool
  | Ev.doneSignal => true
  | _ => false

def Ev.isJobCreatedEv : Ev → Bool
  | Ev.jobCreated _ _ => true
  | _ => false

def Ev.isResolveEv : Ev → Bool
  | Ev.resolveGenerate => true
  | _ => false

def Ev.isWriteEpicEv : Ev → Bool
  | Ev.writeEpic _ _ => true
  | _ => false

def Ev.isWriteStoryEv : Ev → Bool
  | Ev.writeStory _ _ _ => true
  | _ => false

def Ev.isHomeEv : Ev → Bool
  | Ev.writeHome _ => true
  | _ => false

/-- Any page-producing write event (home, epic or story page). -/
def Ev.isPageWrite : Ev → Bool
  | Ev.writeHome _ => true
  | Ev.writeEpic _ _ => true
  | Ev.writeStory _ _ _ => true
  | _ => false

/-- Events belonging to a detached epic subtree (everything the `forEach`
callback performs after its fetches resolve). -/
def Ev.isSubtreeEv : Ev → Bool
  | Ev.mkdirEpic _ => true
  | Ev.writeEpic _ _ => true
  | Ev.mkdirStory _ _ => true
  | Ev.writeStory _ _ _ => true
  | Ev.ensureImgsDir => true
  | Ev.jobCreated _ _ => true
  | _ => false

/-- Content of a page-write event (empty for every other event). -/
def contentOf : Ev → String
  | Ev.writeHome c => c
  | Ev.writeEpic _ c => c
  | Ev.writeStory _ _ c => c
  | _ => ""

/-- The jobs recorded by the `jobCreated` events of a trace fragment, in
order. -/
def createdIn : List Ev → List Job
  | [] => []
  | Ev.jobCreated u f :: r => ⟨u, f⟩ :: createdIn r
  | _ :: r => createdIn r

/-- Every `jobCreated` event is immediately preceded by the `ensureImgsDir`
step of the same `downloadImage` call. -/
def AdjOK (d : List Ev) : Prop :=
  ∀ n u f, d.get? n = some (Ev.jobCreated u f) →
    1 ≤ n ∧ d.get? (n - 1) = some Ev.ensureImgsDir

/-- Every story-page write is preceded by an epic-page write bearing the same
epic id. -/
def StoryAfterOK (d : List Ev) : Prop :=
  ∀ n eid sid c, d.get? n = some (Ev.writeStory eid sid c) →
    ∃ m c2, m < n ∧ d.get? m = some (Ev.writeEpic eid c2)

/-- Events that one story block may emit, all tied to its epic's id. -/
def isStoryBlockEv (eid : Nat) : Ev → Bool
  | Ev.mkdirStory e _ => e == eid
  | Ev.ensureImgsDir => true
  | Ev.jobCreated _ _ => true
  | Ev.writeStory e _ _ => e == eid
  | _ => false

/-- The trace of the deterministic prefix, by initial file-system state. -/
def genTrace (cfg : Config) : List Ev :=
  (if cfg.sitesDirExists then [] else [Ev.mkdirSites]) ++
    (if cfg.siteDirExists then [Ev.rmSiteDir] else []) ++
    (if cfg.siteDirExists ∧ cfg.rmFails then []
     else
       [Ev.mkdirSiteDir,
         Ev.writeHome (homeHtml cfg.remote.milestone cfg.remote.epics),
         Ev.resolveGenerate, Ev.captureJobs [], Ev.doneSignal])

/-- Run invariant tying the event trace to the job collection. -/
structure Inv (cfg : Config) (st : St) : Prop where
  ctr_eq : st.sc.ctr = st.sc.jobs.length
  fname : ∀ k jb, st.sc.jobs.get? k = some jb →
    jb.filename = hexOfBytes (cfg.entropy k) ++ extOf jb.url
  created_jobs : ∀ u f, Ev.jobCreated u f ∈ st.sc.evs → Job.mk u f ∈ st.sc.jobs
  jobs_created : ∀ jb ∈ st.sc.jobs, Ev.jobCreated jb.url jb.filename ∈ st.sc.evs
  settle_late : ∀ n f ok, st.sc.evs.get? n = some (Ev.jobSettled f ok) →
    ∃ m u, m < n ∧ st.sc.evs.get? m = some (Ev.jobCreated u f)
  ensure_adj : AdjOK st.sc.evs
  covered : ∀ jb ∈ st.sc.jobs, ∃ e, e ∈ st.sc.evs ∧ e.isPageWrite = true ∧
    ("/imgs/".data ++ jb.filename) <:+: (contentOf e).data
  img_ok : ∀ f, Ev.writeImg f ∈ st.sc.evs →
    ∃ jb, jb ∈ st.sc.jobs ∧ jb.filename = f ∧ cfg.imgOk jb.url = true
  settle_ok : ∀ f ok, Ev.jobSettled f ok ∈ st.sc.evs →
    ∃ jb, jb ∈ st.sc.jobs ∧ jb.filename = f ∧ cfg.imgOk jb.url = ok
  story_after : StoryAfterOK st.sc.evs

/-- A story with a missing (`undefined`) description, as `listEpicStories` can
return it. -/
def storyC : StoryData :=
  { id := 9
    name := "Story"
    description := none
    created_at := "2024-01-02"
    updated_at := none }

/-- An epic whose description holds one remote media image, with one story. -/
def epicC : EpicData :=
  { id := 7
    name := "Epic"
    description := "![a](https://media.app.shortcut.com/x.png)"
    created_at := "2024-01-01"
    updated_at := none
    stories := [storyC] }

/-- A small concrete run used by the counterexamples: one epic holding one
media image and one story, all downloads failing, no pre-existing output
directories. -/
def cfgC : Config :=
  { site := { apiKey := "key", name := "mysite", slug := "ws", objectiveId := 1 }
    remote :=
      { milestone := { name := "Obj", description := "About" }
        epics := [epicC] }
    entropy := fun _ => List.replicate 16 0
    sitesDirExists := false
    siteDirExists := false
    rmFails := false
    imgOk := fun _ => false }

/-- A story with an explicitly empty description. -/
def storyE : StoryData :=
  { id := 9
    name := "Story"
    description := some ""
    created_at := "2024-01-02"
    updated_at := none }

/-- An epic with an empty description holding one empty-description story. -/
def epicE : EpicData :=
  { id := 7
    name := "Epic"
    description := ""
    created_at := "2024-01-01"
    updated_at := none
    stories := [storyE] }

/-- Concrete run whose epic and story both carry empty or missing
descriptions. -/
def cfgE : Config :=
  { site := { apiKey := "key", name := "mysite", slug := "ws", objectiveId := 1 }
    remote :=
      { milestone := { name := "Obj", description := "About" }
        epics := [epicE] }
    entropy := fun _ => List.replicate 16 0
    sitesDirExists := false
    siteDirExists := false
    rmFails := false
    imgOk := fun _ => false }

/-- Concrete run in which the removal of the pre-existing site directory
fails. -/
def cfgErr : Config :=
  { site := { apiKey := "key", name := "mysite", slug := "ws", objectiveId := 1 }
    remote :=
      { milestone := { name := "Obj", description := "About" }
        epics := [epicC] }
    entropy := fun _ => List.replicate 16 0
    sitesDirExists := false
    siteDirExists := true
    rmFails := true
    imgOk := fun _ => false }

/-- An epic whose description holds two remote media images on two lines. -/
def epicW : EpicData :=
  { id := 7
    name := "Epic"
    description :=
      "![a](https://media.app.shortcut.com/x.png)\n![b](https://media.app.shortcut.com/y.png)"
    created_at := "2024-01-01"
    updated_at := none
    stories := [] }

/-- Concrete run creating two image jobs, with distinct entropy draws and all
downloads failing. -/
def cfgW : Config :=
  { site := { apiKey := "key", name := "mysite", slug := "ws", objectiveId := 1 }
    remote :=
      { milestone := { name := "Obj", description := "About" }
        epics := [epicW] }
    entropy := fun k => k % 256 :: List.replicate 15 0
    sitesDirExists := false
    siteDirExists := false
    rmFails := false
    imgOk := fun _ => false }

/-- The first created job of `cfgW`'s run. -/
def jbW1 : Job :=
  ⟨"https://media.app.shortcut.com/x.png".data,
    "00000000000000000000000000000000.png".data⟩

/-- The entropy source of the small concrete runs: all-zero byte draws. -/
def entropy0 : Nat → List Nat := fun _ => List.replicate 16 0

/-- The four line terminators that JavaScript `.` (without the `s` flag)
refuses to match. The scanner models `.` as any character except `'\n'` (the
line splitting), so single-match theorems additionally hypothesize that the
matched region is free of the remaining three. -/
def isLineTerm (c : Char) : Bool :=
  c = '\n' || c = '\r' || c = '\u2028' || c = '\u2029'

def Ev.isSettledEv : Ev → Bool
  | Ev.jobSettled _ _ => true
  | _ => false

def Ev.isCaptureEv : Ev → Bool
  | Ev.captureJobs _ => true
  | _ => false

/-- The observable footprint one epic's callback must leave in a trace: the
epic page, written with its rendered description (empty when the description
is empty), and one page per story likewise. -/
def EpicDone (cfg : Config) (epic : EpicData) (evs : List Ev) : Prop :=
  (∃ r1, Ev.writeEpic epic.id (epicHtml cfg.site cfg.remote.epics epic r1) ∈ evs ∧
    (epic.description = "" → r1 = "")) ∧
  ∀ story ∈ epic.stories, ∃ r2,
    Ev.writeStory epic.id story.id
      (storyHtml cfg.site cfg.remote.epics epic story r2) ∈ evs ∧
    (jsOr story.description "" = "" → r2 = "")

/-- Length facts for `splitLastParen`, needed for termination of the scanner. -/
theorem splitLastParen_shape {l b a : List Char} (h : splitLastParen l = some (b, a)) :
    l = b ++ ')' :: a := by
  induction l generalizing b a with
  | nil => simp [splitLastParen] at h
  | cons c r ih =>
    simp only [splitLastParen] at h
    cases hr : splitLastParen r with
    | some p =>
      rw [hr] at h
      cases p with
      | mk b2 a2 =>
        simp at h
        obtain ⟨hb, ha⟩ := h
        subst hb ha
        simp [ih hr]
    | none =>
      rw [hr] at h
      by_cases hc : c = ')'
      · simp [hc] at h
        obtain ⟨hb, ha⟩ := h
        subst hb ha
        simp [hc]
      · simp [hc] at h

/-- Shape fact for `splitLastRef`: a successful split reassembles the input
around a `](` with a nonempty tail. -/
theorem splitLastRef_shape {l b a : List Char} (h : splitLastRef l = some (b, a)) :
    l = b ++ ']' :: '(' :: a ∧ a ≠ [] := by
  induction l generalizing b a with
  | nil => simp [splitLastRef] at h
  | cons c r ih =>
    simp only [splitLastRef] at h
    cases hr : splitLastRef r with
    | some p =>
      rw [hr] at h
      cases p with
      | mk b2 a2 =>
        simp at h
        obtain ⟨hb, ha⟩ := h
        subst hb ha
        obtain ⟨h1, h2⟩ := ih hr
        exact ⟨by simp [h1], h2⟩
    | none =>
      rw [hr] at h
      by_cases hcond : c = ']' ∧ r.head? = some '(' ∧ 2 ≤ r.length
      · rw [if_pos hcond] at h
        obtain ⟨hc, hhd, hlen⟩ := hcond
        simp at h
        obtain ⟨hb, ha⟩ := h
        subst hc
        cases r with
        | nil => simp at hhd
        | cons c2 r2 =>
          simp at hhd
          subst hhd
          cases r2 with
          | nil => simp at hlen
          | cons d t =>
            simp at hb ha
            subst hb
            simp [← ha]
      · rw [if_neg hcond] at h
        simp at h

theorem matchTail_shape {r alt src rest : List Char}
    (h : matchTail r = some (alt, src, rest)) :
    r = alt ++ ']' :: '(' :: src ++ ')' :: rest ∧ src ≠ [] := by
  unfold matchTail at h
  cases hp : splitLastParen r with
  | none => rw [hp] at h; simp at h
  | some p =>
    rw [hp] at h
    cases p with
    | mk b rest2 =>
      cases hb : splitLastRef b with
      | none => simp [hb] at h
      | some q =>
        cases q with
        | mk alt2 src2 =>
          simp [hb] at h
          obtain ⟨h1, h2, h3⟩ := h
          subst h1 h2 h3
          obtain ⟨hshape, hne⟩ := splitLastRef_shape hb
          have hr := splitLastParen_shape hp
          subst hshape
          refine ⟨?_, hne⟩
          simpa [List.append_assoc] using hr

/-- A successful match consumes at least the bracket pair, so the rest is
strictly shorter than the input; needed for scanner termination. -/
theorem matchTail_rest_lt {r alt src rest : List Char}
    (h : matchTail r = some (alt, src, rest)) : rest.length < r.length := by
  obtain ⟨hshape, _⟩ := matchTail_shape h
  subst hshape
  simp [List.length_append]
  omega

theorem scanLineF_nil (entropy : Nat → List Nat) (f : Nat) (st : ScanSt) :
    scanLineF entropy f [] st = ([], st) := by
  cases f <;> rfl

theorem refAt_rest_lt {c : Char} {r alt src rest : List Char}
    (h : refAt c r = some (alt, src, rest)) : rest.length < r.length := by
  unfold refAt at h
  by_cases hc : c = '!' ∧ r.head? = some '['
  · rw [if_pos hc] at h
    have h1 := matchTail_rest_lt h
    have h2 : r.tail.length = r.length - 1 := List.length_tail r
    omega
  · rw [if_neg hc] at h
    simp at h

/-- With fuel exceeding the line length, the engine's result does not depend on
the exact fuel: every step consumes at least one character. -/
theorem scanLineF_fuel (entropy : Nat → List Nat) :
    ∀ (n : Nat) (l : List Char) (f g : Nat) (st : ScanSt),
      l.length ≤ n → l.length < f → l.length < g →
      scanLineF entropy f l st = scanLineF entropy g l st := by
  intro n
  induction n with
  | zero =>
    intro l f g st hn hf hg
    have hl : l = [] := List.eq_nil_of_length_eq_zero (Nat.le_zero.mp hn)
    subst hl
    rw [scanLineF_nil, scanLineF_nil]
  | succ n ih =>
    intro l f g st hn hf hg
    cases l with
    | nil => rw [scanLineF_nil, scanLineF_nil]
    | cons c r =>
      simp only [List.length_cons] at hn hf hg
      cases f with
      | zero => omega
      | succ f =>
        cases g with
        | zero => omega
        | succ g =>
          simp only [scanLineF]
          cases hra : refAt c r with
          | none =>
            have hrec := ih r f g st (by omega) (by omega) (by omega)
            simp [hrec]
          | some t =>
            obtain ⟨alt, src, rest⟩ := t
            have hrl := refAt_rest_lt hra
            have hrec : ∀ st2, scanLineF entropy f rest st2 = scanLineF entropy g rest st2 :=
              fun st2 => ih rest f g st2 (by omega) (by omega) (by omega)
            by_cases hmedia : mediaHost.isPrefixOf src
            · simp [hmedia, hrec]
            · simp [hmedia, hrec]

theorem scanLine_nil (entropy : Nat → List Nat) (st : ScanSt) :
    scanLine entropy [] st = ([], st) := rfl

/-- Scanner equation: a character that starts no match is copied to the
output. -/
theorem scanLine_copy {c : Char} {r : List Char} (h : refAt c r = none)
    (entropy : Nat → List Nat) (st : ScanSt) :
    scanLine entropy (c :: r) st =
      ((c :: (scanLine entropy r st).1), (scanLine entropy r st).2) := by
  unfold scanLine
  simp only [List.length_cons, scanLineF, h]

/-- Scanner equation: a match on the remote media host is relocated through
`downloadImage` and replaced by the local image path. -/
theorem scanLine_media {c : Char} {r alt src rest : List Char}
    (entropy : Nat → List Nat) (st : ScanSt)
    (h : refAt c r = some (alt, src, rest)) (hm : mediaHost.isPrefixOf src) :
    scanLine entropy (c :: r) st =
      (mediaRepl entropy st alt src ++
        (scanLine entropy rest (mediaSt entropy st alt src)).1,
       (scanLine entropy rest (mediaSt entropy st alt src)).2) := by
  have hrl := refAt_rest_lt h
  unfold scanLine
  simp only [List.length_cons, scanLineF, h, hm, if_true]
  rw [scanLineF_fuel entropy (r.length + 1) rest (r.length + 1) (rest.length + 1) _
    (by omega) (by omega) (by omega)]
  rfl

/-- Scanner equation: a match not on the remote media host is reproduced
unchanged (the replacement is the match text itself). -/
theorem scanLine_other {c : Char} {r alt src rest : List Char}
    (entropy : Nat → List Nat) (st : ScanSt)
    (h : refAt c r = some (alt, src, rest)) (hm : ¬ mediaHost.isPrefixOf src) :
    scanLine entropy (c :: r) st =
      (imgRef alt src ++ (scanLine entropy rest (otherSt st alt src)).1,
       (scanLine entropy rest (otherSt st alt src)).2) := by
  have hrl := refAt_rest_lt h
  unfold scanLine
  simp only [List.length_cons, scanLineF, h, hm, Bool.false_eq_true, if_false]
  rw [scanLineF_fuel entropy (r.length + 1) rest (r.length + 1) (rest.length + 1) _
    (by omega) (by omega) (by omega)]
  rfl

/-- Induction principle following the scanner's recursion: either no match
starts at the head (one character is consumed) or a match starts there (the
match is consumed). -/
theorem scanLine_induction (P : List Char → Prop)
    (hnil : P [])
    (hcopy : ∀ c r, refAt c r = none → P r → P (c :: r))
    (hmatch : ∀ c r alt src rest,
      refAt c r = some (alt, src, rest) → P rest → P (c :: r)) :
    ∀ l, P l := by
  have key : ∀ n l, List.length l ≤ n → P l := by
    intro n
    induction n with
    | zero =>
      intro l h
      have hl : l = [] := List.eq_nil_of_length_eq_zero (Nat.le_zero.mp h)
      subst hl
      exact hnil
    | succ n ih =>
      intro l h
      cases l with
      | nil => exact hnil
      | cons c r =>
        simp only [List.length_cons] at h
        cases hra : refAt c r with
        | none => exact hcopy c r hra (ih r (by omega))
        | some t =>
          obtain ⟨alt, src, rest⟩ := t
          have := refAt_rest_lt hra
          exact hmatch c r alt src rest hra (ih rest (by omega))
  exact fun l => key l.length l le_rfl

/-- The scanner only appends to the context: new jobs carry matching
`[ensureImgsDir, jobCreated]` event pairs and one entropy draw each. -/
theorem scanLine_state (entropy : Nat → List Nat) (l : List Char) :
    ∀ st : ScanSt, ∃ js ms2,
      (scanLine entropy l st).2 =
        ⟨st.ctr + js.length, st.jobs ++ js, st.evs ++ jobEvs js, st.ms ++ ms2⟩ := by
  induction l using scanLine_induction with
  | hnil =>
    intro st
    exact ⟨[], [], by simp [scanLine_nil, jobEvs]⟩
  | hcopy c r hra ih =>
    intro st
    obtain ⟨js, ms2, h2⟩ := ih st
    refine ⟨js, ms2, ?_⟩
    rw [scanLine_copy hra]
    exact h2
  | hmatch c r alt src rest hra ih =>
    intro st
    by_cases hm : mediaHost.isPrefixOf src
    · obtain ⟨js, ms2, h2⟩ := ih (mediaSt entropy st alt src)
      refine ⟨⟨src, (downloadImage entropy st src).1⟩ :: js,
        ⟨alt, src, mediaRepl entropy st alt src⟩ :: ms2, ?_⟩
      rw [scanLine_media entropy st hra hm]
      rw [h2]
      simp only [mediaSt, downloadImage, jobEvs, List.flatMap_cons, ScanSt.mk.injEq,
        List.length_cons]
      refine ⟨by omega, by simp, by simp [jobEvs], by simp⟩
    · obtain ⟨js, ms2, h2⟩ := ih (otherSt st alt src)
      refine ⟨js, ⟨alt, src, imgRef alt src⟩ :: ms2, ?_⟩
      rw [scanLine_other entropy st hra hm]
      rw [h2]
      simp [otherSt, ScanSt.mk.injEq, List.append_assoc]

theorem infix_ext_left {l t : List Char} (s : List Char) (h : l <:+: t) :
    l <:+: s ++ t := by
  obtain ⟨x, y, e⟩ := h
  exact ⟨s ++ x, y, by rw [← e]; simp [List.append_assoc]⟩

theorem infix_ext_right {l t : List Char} (s : List Char) (h : l <:+: t) :
    l <:+: t ++ s := by
  obtain ⟨x, y, e⟩ := h
  exact ⟨x, y ++ s, by rw [← e]; simp [List.append_assoc]⟩

/-- Every job the scanner creates is covered by the line's output: the local
image path `/imgs/<filename>` occurs in the output text. -/
theorem scanLine_jobs_covered (entropy : Nat → List Nat) (l : List Char) :
    ∀ st jb, jb ∈ (scanLine entropy l st).2.jobs →
      jb ∈ st.jobs ∨ ("/imgs/".data ++ jb.filename) <:+: (scanLine entropy l st).1 := by
  induction l using scanLine_induction with
  | hnil =>
    intro st jb h
    rw [scanLine_nil] at h
    exact Or.inl h
  | hcopy c r hra ih =>
    intro st jb h
    rw [scanLine_copy hra] at h ⊢
    rcases ih st jb h with h1 | h1
    · exact Or.inl h1
    · exact Or.inr (List.infix_cons h1)
  | hmatch c r alt src rest hra ih =>
    intro st jb h
    by_cases hm : mediaHost.isPrefixOf src
    · rw [scanLine_media entropy st hra hm] at h ⊢
      rcases ih (mediaSt entropy st alt src) jb h with h1 | h1
      · simp only [mediaSt, downloadImage, List.mem_append, List.mem_singleton] at h1
        rcases h1 with h1 | h1
        · exact Or.inl h1
        · refine Or.inr ?_
          refine ⟨'!' :: '[' :: (alt ++ [']', '(']),
            [')'] ++ (scanLine entropy rest (mediaSt entropy st alt src)).1, ?_⟩
          subst h1
          simp [mediaRepl, imgRef, downloadImage, List.append_assoc]
      · exact Or.inr (infix_ext_left _ h1)
    · rw [scanLine_other entropy st hra hm] at h ⊢
      rcases ih (otherSt st alt src) jb h with h1 | h1
      · exact Or.inl (by simpa [otherSt] using h1)
      · exact Or.inr (infix_ext_left _ h1)

/-- Every match the scanner records is reproduced in the output as its recorded
rewrite text; that text is the original match for a non-media source, and the
relocated image path for a media source. -/
theorem scanLine_ms_covered (entropy : Nat → List Nat) (l : List Char) :
    ∀ st m, m ∈ (scanLine entropy l st).2.ms →
      m ∈ st.ms ∨
        (m.out <:+: (scanLine entropy l st).1 ∧
          (¬ mediaHost.isPrefixOf m.src → m.out = imgRef m.alt m.src) ∧
          (mediaHost.isPrefixOf m.src →
            ∃ fn, m.out = imgRef m.alt ("/imgs/".data ++ fn))) := by
  induction l using scanLine_induction with
  | hnil =>
    intro st m h
    rw [scanLine_nil] at h
    exact Or.inl h
  | hcopy c r hra ih =>
    intro st m h
    rw [scanLine_copy hra] at h ⊢
    rcases ih st m h with h1 | ⟨h1, h2, h3⟩
    · exact Or.inl h1
    · exact Or.inr ⟨List.infix_cons h1, h2, h3⟩
  | hmatch c r alt src rest hra ih =>
    intro st m h
    by_cases hm : mediaHost.isPrefixOf src
    · rw [scanLine_media entropy st hra hm] at h ⊢
      rcases ih (mediaSt entropy st alt src) m h with h1 | ⟨h1, h2, h3⟩
      · simp only [mediaSt, downloadImage, List.mem_append, List.mem_singleton] at h1
        rcases h1 with h1 | h1
        · exact Or.inl h1
        · subst h1
          refine Or.inr ⟨infix_ext_right _ (by simp [mediaRepl]), ?_, ?_⟩
          · intro hcon
            exact absurd hm hcon
          · intro _
            exact ⟨(downloadImage entropy st src).1, rfl⟩
      · exact Or.inr ⟨infix_ext_left _ h1, h2, h3⟩
    · rw [scanLine_other entropy st hra hm] at h ⊢
      rcases ih (otherSt st alt src) m h with h1 | ⟨h1, h2, h3⟩
      · simp only [otherSt, List.mem_append, List.mem_singleton] at h1
        rcases h1 with h1 | h1
        · exact Or.inl h1
        · subst h1
          refine Or.inr ⟨infix_ext_right _ (by simp), fun _ => rfl, ?_⟩
          intro hcon
          exact absurd hcon hm
      · exact Or.inr ⟨infix_ext_left _ h1, h2, h3⟩

theorem scanLines_state (entropy : Nat → List Nat) (ls : List (List Char)) :
    ∀ st : ScanSt, ∃ js ms2,
      (scanLines entropy ls st).2 =
        ⟨st.ctr + js.length, st.jobs ++ js, st.evs ++ jobEvs js, st.ms ++ ms2⟩ := by
  induction ls with
  | nil =>
    intro st
    exact ⟨[], [], by simp [scanLines, jobEvs]⟩
  | cons x xs ih =>
    intro st
    obtain ⟨js1, ms1, h1⟩ := scanLine_state entropy x st
    obtain ⟨js2, ms2, h2⟩ := ih (scanLine entropy x st).2
    refine ⟨js1 ++ js2, ms1 ++ ms2, ?_⟩
    simp only [scanLines]
    rw [h2, h1]
    simp only [ScanSt.mk.injEq, jobEvs, List.flatMap_append, List.append_assoc,
      List.length_append]
    exact ⟨by omega, trivial, trivial, trivial⟩

theorem scanLines_jobs_covered (entropy : Nat → List Nat) (ls : List (List Char)) :
    ∀ st jb, jb ∈ (scanLines entropy ls st).2.jobs →
      jb ∈ st.jobs ∨ ∃ out, out ∈ (scanLines entropy ls st).1 ∧
        ("/imgs/".data ++ jb.filename) <:+: out := by
  induction ls with
  | nil =>
    intro st jb h
    simp [scanLines] at h
    exact Or.inl h
  | cons x xs ih =>
    intro st jb h
    simp only [scanLines] at h ⊢
    rcases ih (scanLine entropy x st).2 jb h with h1 | ⟨out, ho, hi⟩
    · rcases scanLine_jobs_covered entropy x st jb h1 with h2 | h2
      · exact Or.inl h2
      · exact Or.inr ⟨(scanLine entropy x st).1, by simp, h2⟩
    · exact Or.inr ⟨out, by simp [ho], hi⟩

theorem scanLines_ms_covered (entropy : Nat → List Nat) (ls : List (List Char)) :
    ∀ st m, m ∈ (scanLines entropy ls st).2.ms →
      m ∈ st.ms ∨
        ((∃ out, out ∈ (scanLines entropy ls st).1 ∧ m.out <:+: out) ∧
          (¬ mediaHost.isPrefixOf m.src → m.out = imgRef m.alt m.src) ∧
          (mediaHost.isPrefixOf m.src →
            ∃ fn, m.out = imgRef m.alt ("/imgs/".data ++ fn))) := by
  induction ls with
  | nil =>
    intro st m h
    simp [scanLines] at h
    exact Or.inl h
  | cons x xs ih =>
    intro st m h
    simp only [scanLines] at h ⊢
    rcases ih (scanLine entropy x st).2 m h with h1 | ⟨⟨out, ho, hi⟩, h2, h3⟩
    · rcases scanLine_ms_covered entropy x st m h1 with h2 | ⟨hi, h2, h3⟩
      · exact Or.inl h2
      · exact Or.inr ⟨⟨(scanLine entropy x st).1, by simp, hi⟩, h2, h3⟩
    · exact Or.inr ⟨⟨out, by simp [ho], hi⟩, h2, h3⟩

theorem infix_joinLines {out : List Char} {ls : List (List Char)} (h : out ∈ ls) :
    out <:+: joinLines ls := by
  induction ls with
  | nil => simp at h
  | cons x xs ih =>
    cases xs with
    | nil =>
      simp at h
      subst h
      simp [joinLines]
    | cons y ys =>
      have hj : joinLines (x :: y :: ys) = x ++ '\n' :: joinLines (y :: ys) := rfl
      rw [hj]
      rcases List.mem_cons.mp h with h1 | h1
      · subst h1
        exact infix_ext_right _ List.infix_rfl
      · exact infix_ext_left x (List.infix_cons (ih h1))

theorem data_asString (l : List Char) : l.asString.data = l :=
  List.toList_asString l

/-- State footprint of `parseDescription`: rendering appends the created jobs,
one `[ensureImgsDir, jobCreated]` event pair per job, and the match records. -/
theorem parseDescription_state (entropy : Nat → List Nat) (desc : String) (st : ScanSt) :
    ∃ js ms2,
      (parseDescription entropy desc st).2 =
        ⟨st.ctr + js.length, st.jobs ++ js, st.evs ++ jobEvs js, st.ms ++ ms2⟩ := by
  unfold parseDescription
  exact scanLines_state entropy _ st

/-- Every job created while rendering a description has its `/imgs/<filename>`
path occurring in the rendered output. -/
theorem parseDescription_jobs_covered (entropy : Nat → List Nat) (desc : String)
    (st : ScanSt) (jb : Job)
    (h : jb ∈ (parseDescription entropy desc st).2.jobs) :
    jb ∈ st.jobs ∨
      ("/imgs/".data ++ jb.filename) <:+: (parseDescription entropy desc st).1.data := by
  unfold parseDescription at h ⊢
  rcases scanLines_jobs_covered entropy _ st jb h with h1 | ⟨out, ho, hi⟩
  · exact Or.inl h1
  · refine Or.inr ?_
    simp only [markedParse, data_asString]
    exact hi.trans (infix_joinLines ho)

/-- Every match recorded while rendering a description is reproduced in the
rendered output as its recorded rewrite text; a non-media match is rewritten
to itself, a media match to a local image path. -/
theorem parseDescription_ms_covered (entropy : Nat → List Nat) (desc : String)
    (st : ScanSt) (m : ImgMatch)
    (h : m ∈ (parseDescription entropy desc st).2.ms) :
    m ∈ st.ms ∨
      (m.out <:+: (parseDescription entropy desc st).1.data ∧
        (¬ mediaHost.isPrefixOf m.src → m.out = imgRef m.alt m.src) ∧
        (mediaHost.isPrefixOf m.src →
          ∃ fn, m.out = imgRef m.alt ("/imgs/".data ++ fn))) := by
  unfold parseDescription at h ⊢
  rcases scanLines_ms_covered entropy _ st m h with h1 | ⟨⟨out, ho, hi⟩, h2, h3⟩
  · exact Or.inl h1
  · refine Or.inr ⟨?_, h2, h3⟩
    simp only [markedParse, data_asString]
    exact hi.trans (infix_joinLines ho)

theorem refAt_none_of_ne {c : Char} (h : c ≠ '!') (r : List Char) :
    refAt c r = none := by
  unfold refAt
  rw [if_neg]
  intro hcon
  exact h hcon.1

theorem splitLastParen_none {l : List Char} (h : ')' ∉ l) :
    splitLastParen l = none := by
  induction l with
  | nil => rfl
  | cons c r ih =>
    simp only [List.mem_cons, not_or] at h
    simp only [splitLastParen, ih h.2]
    rw [if_neg (fun hc => h.1 hc.symm)]

theorem matchTail_none_of_no_paren {r : List Char} (h : ')' ∉ r) :
    matchTail r = none := by
  unfold matchTail
  rw [splitLastParen_none h]

theorem refAt_none_of_no_paren {c : Char} {r : List Char} (h : ')' ∉ r) :
    refAt c r = none := by
  unfold refAt
  by_cases hc : c = '!' ∧ r.head? = some '['
  · rw [if_pos hc]
    refine matchTail_none_of_no_paren ?_
    intro hcon
    exact h (List.mem_of_mem_tail hcon)
  · rw [if_neg hc]

/-- A line with no closing parenthesis admits no match anywhere: the scanner
copies it verbatim and touches nothing. -/
theorem scanLine_no_paren (entropy : Nat → List Nat) {l : List Char}
    (h : ')' ∉ l) (st : ScanSt) : scanLine entropy l st = (l, st) := by
  induction l with
  | nil => exact scanLine_nil entropy st
  | cons c r ih =>
    have hr : ')' ∉ r := fun hc => h (List.mem_cons_of_mem c hc)
    rw [scanLine_copy (refAt_none_of_no_paren hr), ih hr]

/-- Characters before the first possible match start are copied verbatim. -/
theorem scanLine_append_copy (entropy : Nat → List Nat) {a : List Char}
    (ha : '!' ∉ a) (l : List Char) (st : ScanSt) :
    scanLine entropy (a ++ l) st =
      (a ++ (scanLine entropy l st).1, (scanLine entropy l st).2) := by
  induction a with
  | nil => simp
  | cons c a2 ih =>
    simp only [List.mem_cons, not_or] at ha
    rw [List.cons_append, scanLine_copy (refAt_none_of_ne (fun hc => ha.1 hc.symm) _),
      ih ha.2]
    rfl

theorem splitLastRef_none_of_no_brack {l : List Char} (h : ']' ∉ l) :
    splitLastRef l = none := by
  induction l with
  | nil => rfl
  | cons c r ih =>
    simp only [List.mem_cons, not_or] at h
    simp only [splitLastRef, ih h.2]
    rw [if_neg]
    intro hcon
    exact h.1 hcon.1.symm

/-- Exact splitting at the intended `](` boundary: anything may appear in the
alt text, while the source must avoid `]` (else a later boundary is greedily
chosen) and be nonempty. -/
theorem splitLastRef_exact {alt url : List Char} (hu1 : ']' ∉ url)
    (hu2 : url ≠ []) :
    splitLastRef (alt ++ ']' :: '(' :: url) = some (alt, url) := by
  induction alt with
  | nil =>
    have hnone : splitLastRef ('(' :: url) = none := by
      refine splitLastRef_none_of_no_brack ?_
      intro hcon
      rcases List.mem_cons.mp hcon with h1 | h1
      · exact absurd h1 (by decide)
      · exact hu1 h1
    have hcond : ']' = ']' ∧ ('(' :: url).head? = some '(' ∧ 2 ≤ ('(' :: url).length := by
      refine ⟨rfl, rfl, ?_⟩
      cases url with
      | nil => exact absurd rfl hu2
      | cons d t => simp
    rw [List.nil_append, splitLastRef.eq_2, hnone, if_pos hcond]
    rfl
  | cons c alt2 ih =>
    rw [List.cons_append, splitLastRef.eq_2, ih]

/-- Exact splitting at the intended closing parenthesis: the tail after it must
avoid `)` (else a later parenthesis is greedily chosen). -/
theorem splitLastParen_exact {B b : List Char} (hb : ')' ∉ b) :
    splitLastParen (B ++ ')' :: b) = some (B, b) := by
  induction B with
  | nil =>
    rw [List.nil_append, splitLastParen.eq_2, splitLastParen_none hb, if_pos rfl]
  | cons c B2 ih =>
    rw [List.cons_append, splitLastParen.eq_2, ih]

/-- The greedy match of the image pattern on a cleanly delimited reference. -/
theorem matchTail_exact {alt url b : List Char} (hb : ')' ∉ b)
    (hu1 : ']' ∉ url) (hu2 : url ≠ []) :
    matchTail (alt ++ ']' :: '(' :: url ++ ')' :: b) = some (alt, url, b) := by
  unfold matchTail
  rw [show alt ++ ']' :: '(' :: url ++ ')' :: b = (alt ++ ']' :: '(' :: url) ++ ')' :: b
    from by simp [List.append_assoc]]
  rw [splitLastParen_exact hb]
  show (match splitLastRef (alt ++ ']' :: '(' :: url) with
    | none => none
    | some (alt, src) => some (alt, src, b)) = some (alt, url, b)
  rw [splitLastRef_exact hu1 hu2]

theorem refAt_start {R : List Char} : refAt '!' ('[' :: R) = matchTail R := by
  unfold refAt
  rw [if_pos ⟨rfl, rfl⟩]
  rfl

/-- The scan of a line holding exactly one cleanly delimited image reference:
text before it free of `!`, text after it free of `)`, source free of `]` and
nonempty. A media-host source is relocated, any other source is reproduced
verbatim, and the surrounding text is copied unchanged either way. -/
theorem scanLine_single (entropy : Nat → List Nat) (st : ScanSt)
    {a alt url b : List Char}
    (ha : '!' ∉ a) (hb : ')' ∉ b) (hu1 : ']' ∉ url) (hu2 : url ≠ []) :
    scanLine entropy (a ++ imgRef alt url ++ b) st =
      if mediaHost.isPrefixOf url then
        (a ++ mediaRepl entropy st alt url ++ b, mediaSt entropy st alt url)
      else
        (a ++ imgRef alt url ++ b, otherSt st alt url) := by
  have hshape : imgRef alt url ++ b = '!' :: '[' :: (alt ++ ']' :: '(' :: url ++ ')' :: b) := by
    simp [imgRef, List.append_assoc]
  have hra : refAt '!' ('[' :: (alt ++ ']' :: '(' :: url ++ ')' :: b)) =
      some (alt, url, b) := by
    rw [refAt_start, matchTail_exact hb hu1 hu2]
  rw [List.append_assoc, scanLine_append_copy entropy ha, hshape]
  by_cases hm : mediaHost.isPrefixOf url
  · rw [if_pos hm, scanLine_media entropy st hra hm, scanLine_no_paren entropy hb]
    simp [List.append_assoc]
  · rw [if_neg hm, scanLine_other entropy st hra hm, scanLine_no_paren entropy hb]
    simp [imgRef, List.append_assoc]

theorem hexDigit_hex : ∀ m : Nat, m < 16 → isHexChar (hexDigit m) = true := by decide

theorem length_hexOfBytes (bs : List Nat) : (hexOfBytes bs).length = 2 * bs.length := by
  induction bs with
  | nil => rfl
  | cons b bs ih =>
    simp only [hexOfBytes, List.flatMap_cons, List.length_append] at ih ⊢
    simp [hexByte, ih]
    omega

theorem mem_hexOfBytes {bs : List Nat} {x : Char}
    (hval : ∀ y ∈ bs, y < 256) (h : x ∈ hexOfBytes bs) : isHexChar x = true := by
  induction bs with
  | nil => simp [hexOfBytes] at h
  | cons b bs ih =>
    simp only [hexOfBytes, List.flatMap_cons, List.mem_append] at h
    rcases h with h | h
    · have hb : b < 256 := hval b (List.mem_cons_self b bs)
      simp only [hexByte, List.mem_cons, List.mem_singleton] at h
      rcases h with h | h | h
      · subst h
        exact hexDigit_hex _ (by omega)
      · subst h
        exact hexDigit_hex _ (by omega)
      · simp at h
    · exact ih (fun y hy => hval y (List.mem_cons_of_mem b hy)) h

theorem hexDigit_inj : ∀ m1 : Nat, m1 < 16 → ∀ m2 : Nat, m2 < 16 →
    hexDigit m1 = hexDigit m2 → m1 = m2 := by decide

theorem hexByte_inj {b1 b2 : Nat} (h1 : b1 < 256) (h2 : b2 < 256)
    (h : hexByte b1 = hexByte b2) : b1 = b2 := by
  simp only [hexByte, List.cons.injEq, and_true] at h
  obtain ⟨hhi, hlo⟩ := h
  have e1 := hexDigit_inj _ (by omega) _ (by omega) hhi
  have e2 := hexDigit_inj _ (by omega) _ (by omega) hlo
  omega

/-- Hex rendering of byte lists is injective, so distinct byte draws yield
distinct filename stems. -/
theorem hexOfBytes_inj : ∀ {bs1 bs2 : List Nat}, (∀ x ∈ bs1, x < 256) →
    (∀ x ∈ bs2, x < 256) → hexOfBytes bs1 = hexOfBytes bs2 → bs1 = bs2 := by
  intro bs1
  induction bs1 with
  | nil =>
    intro bs2 _ _ h
    cases bs2 with
    | nil => rfl
    | cons b t => simp [hexOfBytes, hexByte] at h
  | cons b1 t1 ih =>
    intro bs2 hv1 hv2 h
    cases bs2 with
    | nil => simp [hexOfBytes, hexByte] at h
    | cons b2 t2 =>
      simp only [hexOfBytes, List.flatMap_cons, hexByte, List.cons_append,
        List.nil_append, List.cons.injEq] at h
      obtain ⟨hhi, hlo, ht⟩ := h
      have hb1 : b1 < 256 := hv1 b1 (List.mem_cons_self b1 t1)
      have hb2 : b2 < 256 := hv2 b2 (List.mem_cons_self b2 t2)
      have eb : b1 = b2 := by
        have e1 := hexDigit_inj _ (by omega) _ (by omega) hhi
        have e2 := hexDigit_inj _ (by omega) _ (by omega) hlo
        omega
      have et : t1 = t2 := by
        refine ih (fun y hy => hv1 y (List.mem_cons_of_mem b1 hy))
          (fun y hy => hv2 y (List.mem_cons_of_mem b2 hy)) ?_
        simpa [hexOfBytes] using ht
      rw [eb, et]

theorem takeWhile_append_sep (sep : Char) (xs zs : List Char) :
    (xs ++ sep :: zs).takeWhile (fun c => c ≠ sep) =
      xs.takeWhile (fun c => c ≠ sep) := by
  induction xs with
  | nil => simp
  | cons x xs ih =>
    rw [List.cons_append, List.takeWhile_cons, List.takeWhile_cons]
    by_cases hx : x = sep
    · subst hx
      rw [if_neg (by simp), if_neg (by simp)]
    · rw [if_pos (by simp [hx]), if_pos (by simp [hx]), ih]

theorem afterLast_media (r : List Char) :
    afterLast '/' (mediaHost ++ r) = afterLast '/' r := by
  have hm : mediaHost = "https://media.app.shortcut.com".data ++ ['/'] := by decide
  rw [hm, List.append_assoc]
  show afterLast '/' ("https://media.app.shortcut.com".data ++ '/' :: r) = _
  unfold afterLast
  rw [List.reverse_append, List.reverse_cons, List.append_assoc, List.singleton_append,
    takeWhile_append_sep]

theorem mem_extOf {c : Char} {url : List Char} (h : c ∈ extOf url) :
    c = '.' ∨ c ∈ afterLast '/' url := by
  unfold extOf at h
  by_cases h1 : (afterLast '/' url).contains '.'
  · rw [if_pos h1] at h
    by_cases h2 : ((afterLast '/' url).reverse.takeWhile (fun c => c ≠ '.')).length + 1 <
        (afterLast '/' url).length
    · rw [if_pos h2] at h
      rcases List.mem_cons.mp h with h3 | h3
      · exact Or.inl h3
      · right
        rw [List.mem_reverse] at h3
        have := List.takeWhile_subset (l := (afterLast '/' url).reverse)
          (fun c => c ≠ '.') h3
        exact List.mem_reverse.mp this
    · rw [if_neg h2] at h
      simp at h
  · rw [if_neg h1] at h
    simp at h

theorem mem_extOf_media {c : Char} {r : List Char} (h : c ∈ extOf (mediaHost ++ r)) :
    c = '.' ∨ c ∈ r := by
  rcases mem_extOf h with h1 | h1
  · exact Or.inl h1
  · rw [afterLast_media] at h1
    right
    unfold afterLast at h1
    rw [List.mem_reverse] at h1
    have := List.takeWhile_subset (l := r.reverse) (fun c => c ≠ '/') h1
    exact List.mem_reverse.mp this

theorem mem_hex_ne_colon {c : Char} (h : isHexChar c = true) : c ≠ ':' := by
  intro he
  subst he
  exact absurd h (by decide)

theorem splitLines_no_newline {l : List Char} (h : '\n' ∉ l) : splitLines l = [l] := by
  induction l with
  | nil => rfl
  | cons c r ih =>
    simp only [List.mem_cons, not_or] at h
    simp only [splitLines]
    rw [if_neg (fun hc => h.1 hc.symm), ih h.2]

/-- Rendering a single-line description holding exactly one cleanly delimited
image reference: the reference is relocated when its URL is on the media host
and reproduced verbatim otherwise, with the surrounding text unchanged. -/
theorem parseDescription_single (entropy : Nat → List Nat) (st : ScanSt)
    {a alt url b : List Char}
    (ha : '!' ∉ a) (hb : ')' ∉ b) (hu1 : ']' ∉ url) (hu2 : url ≠ [])
    (hn : '\n' ∉ a ++ imgRef alt url ++ b) :
    parseDescription entropy (a ++ imgRef alt url ++ b).asString st =
      if mediaHost.isPrefixOf url then
        ((a ++ mediaRepl entropy st alt url ++ b).asString, mediaSt entropy st alt url)
      else
        ((a ++ imgRef alt url ++ b).asString, otherSt st alt url) := by
  unfold parseDescription
  rw [data_asString, splitLines_no_newline hn]
  simp only [scanLines]
  rw [scanLine_single entropy st ha hb hu1 hu2]
  by_cases hm : mediaHost.isPrefixOf url
  · rw [if_pos hm, if_pos hm]
    rfl
  · rw [if_neg hm, if_neg hm]
    rfl

/-- Combined specification of one line scan: state footprint, `/imgs/` path
coverage of every created job, and the filename formula (the `k`-th job overall
consumes the `k`-th entropy draw, its filename being that draw in hex plus the
URL's extension). -/
theorem scanLine_spec (entropy : Nat → List Nat) (l : List Char) :
    ∀ st : ScanSt, ∃ js ms2,
      (scanLine entropy l st).2 =
        ⟨st.ctr + js.length, st.jobs ++ js, st.evs ++ jobEvs js, st.ms ++ ms2⟩ ∧
      (∀ jb ∈ js, ("/imgs/".data ++ jb.filename) <:+: (scanLine entropy l st).1) ∧
      (∀ k (h : k < js.length),
        (js.get ⟨k, h⟩).filename =
          hexOfBytes (entropy (st.ctr + k)) ++ extOf (js.get ⟨k, h⟩).url) := by
  induction l using scanLine_induction with
  | hnil =>
    intro st
    refine ⟨[], [], by simp [scanLine_nil, jobEvs], ?_, ?_⟩
    · intro jb hjb
      simp at hjb
    · intro k h
      simp at h
  | hcopy c r hra ih =>
    intro st
    obtain ⟨js, ms2, h1, h2, h3⟩ := ih st
    refine ⟨js, ms2, ?_, ?_, h3⟩
    · rw [scanLine_copy hra]
      exact h1
    · intro jb hjb
      rw [scanLine_copy hra]
      exact List.infix_cons (h2 jb hjb)
  | hmatch c r alt src rest hra ih =>
    intro st
    by_cases hm : mediaHost.isPrefixOf src
    · obtain ⟨js, ms2, h1, h2, h3⟩ := ih (mediaSt entropy st alt src)
      refine ⟨⟨src, (downloadImage entropy st src).1⟩ :: js,
        ⟨alt, src, mediaRepl entropy st alt src⟩ :: ms2, ?_, ?_, ?_⟩
      · rw [scanLine_media entropy st hra hm, h1]
        simp only [mediaSt, downloadImage, jobEvs, List.flatMap_cons, ScanSt.mk.injEq,
          List.length_cons]
        refine ⟨by omega, by simp, by simp [jobEvs], by simp⟩
      · intro jb hjb
        rw [scanLine_media entropy st hra hm]
        rcases List.mem_cons.mp hjb with hjb | hjb
        · subst hjb
          refine ⟨'!' :: '[' :: (alt ++ [']', '(']),
            [')'] ++ (scanLine entropy rest (mediaSt entropy st alt src)).1, ?_⟩
          simp [mediaRepl, imgRef, downloadImage, List.append_assoc]
        · exact infix_ext_left _ (h2 jb hjb)
      · intro k h
        cases k with
        | zero => simp [downloadImage]
        | succ k =>
          simp only [List.length_cons] at h
          have := h3 k (by omega)
          simp only [List.get_cons_succ] at this ⊢
          rw [this]
          simp only [mediaSt, downloadImage]
          have harith : st.ctr + 1 + k = st.ctr + (k + 1) := by omega
          rw [harith]
    · obtain ⟨js, ms2, h1, h2, h3⟩ := ih (otherSt st alt src)
      refine ⟨js, ⟨alt, src, imgRef alt src⟩ :: ms2, ?_, ?_, ?_⟩
      · rw [scanLine_other entropy st hra hm, h1]
        simp [otherSt, ScanSt.mk.injEq, List.append_assoc]
      · intro jb hjb
        rw [scanLine_other entropy st hra hm]
        exact infix_ext_left _ (h2 jb hjb)
      · intro k h
        have := h3 k h
        simpa [otherSt] using this

/-- `scanLine_spec` lifted to the list of lines. -/
theorem scanLines_spec (entropy : Nat → List Nat) (ls : List (List Char)) :
    ∀ st : ScanSt, ∃ js ms2,
      (scanLines entropy ls st).2 =
        ⟨st.ctr + js.length, st.jobs ++ js, st.evs ++ jobEvs js, st.ms ++ ms2⟩ ∧
      (∀ jb ∈ js, ∃ out, out ∈ (scanLines entropy ls st).1 ∧
        ("/imgs/".data ++ jb.filename) <:+: out) ∧
      (∀ k (h : k < js.length),
        (js.get ⟨k, h⟩).filename =
          hexOfBytes (entropy (st.ctr + k)) ++ extOf (js.get ⟨k, h⟩).url) := by
  induction ls with
  | nil =>
    intro st
    refine ⟨[], [], by simp [scanLines, jobEvs], ?_, ?_⟩
    · intro jb hjb
      simp at hjb
    · intro k h
      simp at h
  | cons x xs ih =>
    intro st
    obtain ⟨js1, ms1, h1, c1, f1⟩ := scanLine_spec entropy x st
    obtain ⟨js2, ms2, h2, c2, f2⟩ := ih (scanLine entropy x st).2
    refine ⟨js1 ++ js2, ms1 ++ ms2, ?_, ?_, ?_⟩
    · simp only [scanLines]
      rw [h2, h1]
      simp only [ScanSt.mk.injEq, jobEvs, List.flatMap_append, List.append_assoc,
        List.length_append]
      exact ⟨by omega, trivial, trivial, trivial⟩
    · intro jb hjb
      simp only [scanLines]
      rcases List.mem_append.mp hjb with hjb | hjb
      · exact ⟨(scanLine entropy x st).1, by simp, c1 jb hjb⟩
      · obtain ⟨out, ho, hi⟩ := c2 jb hjb
        exact ⟨out, by simp [ho], hi⟩
    · intro k h
      simp only [List.get_eq_getElem] at *
      by_cases hk : k < js1.length
      · rw [List.getElem_append_left hk]
        have := f1 k hk
        simpa [List.get_eq_getElem] using this
      · have hlen : js1.length ≤ k := by omega
        rw [List.length_append] at h
        have hk2 : k - js1.length < js2.length := by omega
        rw [List.getElem_append_right hlen]
        have := f2 (k - js1.length) hk2
        rw [h1] at this
        simp only [List.get_eq_getElem] at this
        rw [this]
        have harith : st.ctr + js1.length + (k - js1.length) = st.ctr + k := by omega
        rw [harith]

/-- `scanLine_spec` lifted to whole descriptions. -/
theorem parseDescription_spec (entropy : Nat → List Nat) (desc : String) (st : ScanSt) :
    ∃ js ms2,
      (parseDescription entropy desc st).2 =
        ⟨st.ctr + js.length, st.jobs ++ js, st.evs ++ jobEvs js, st.ms ++ ms2⟩ ∧
      (∀ jb ∈ js,
        ("/imgs/".data ++ jb.filename) <:+: (parseDescription entropy desc st).1.data) ∧
      (∀ k (h : k < js.length),
        (js.get ⟨k, h⟩).filename =
          hexOfBytes (entropy (st.ctr + k)) ++ extOf (js.get ⟨k, h⟩).url) := by
  obtain ⟨js, ms2, h1, c1, f1⟩ := scanLines_spec entropy (splitLines desc.data) st
  refine ⟨js, ms2, h1, ?_, f1⟩
  intro jb hjb
  obtain ⟨out, ho, hi⟩ := c1 jb hjb
  unfold parseDescription
  simp only [markedParse, data_asString]
  exact hi.trans (infix_joinLines ho)

theorem createdIn_append (A B : List Ev) :
    createdIn (A ++ B) = createdIn A ++ createdIn B := by
  induction A with
  | nil => simp [createdIn]
  | cons e r ih => cases e <;> simp [createdIn, ih]

theorem createdIn_jobEvs (js : List Job) : createdIn (jobEvs js) = js := by
  induction js with
  | nil => rfl
  | cons jb r ih =>
    have hsplit : jobEvs (jb :: r) =
        [Ev.ensureImgsDir, Ev.jobCreated jb.url jb.filename] ++ jobEvs r := by
      simp [jobEvs]
    rw [hsplit, createdIn_append, ih]
    rfl

theorem mem_createdIn {u f : List Char} {d : List Ev}
    (h : Ev.jobCreated u f ∈ d) : Job.mk u f ∈ createdIn d := by
  induction d with
  | nil => simp at h
  | cons e r ih =>
    rcases List.mem_cons.mp h with h1 | h1
    · subst h1
      simp [createdIn]
    · cases e <;> simp [createdIn, ih h1]

theorem mem_jobEvs {e : Ev} {js : List Job} (h : e ∈ jobEvs js) :
    e = Ev.ensureImgsDir ∨ ∃ u f, e = Ev.jobCreated u f := by
  induction js with
  | nil => simp [jobEvs] at h
  | cons jb r ih =>
    simp only [jobEvs, List.flatMap_cons] at h
    rcases List.mem_append.mp h with h1 | h1
    · rcases List.mem_cons.mp h1 with h2 | h2
      · exact Or.inl h2
      · simp at h2
        exact Or.inr ⟨jb.url, jb.filename, h2⟩
    · exact ih h1

theorem adjOK_nil : AdjOK [] := by
  intro n u f h
  simp at h

theorem adjOK_single {e : Ev} (h : ∀ u f, e ≠ Ev.jobCreated u f) : AdjOK [e] := by
  intro n u f hn
  cases n with
  | zero =>
    simp at hn
    exact absurd hn (h u f)
  | succ n => simp at hn

theorem adjOK_append {A B : List Ev} (hA : AdjOK A) (hB : AdjOK B)
    (hhd : ∀ u f, B.get? 0 ≠ some (Ev.jobCreated u f)) : AdjOK (A ++ B) := by
  intro n u f h
  by_cases hn : n < A.length
  · rw [List.get?_append hn] at h
    obtain ⟨h1, h2⟩ := hA n u f h
    refine ⟨h1, ?_⟩
    rw [List.get?_append (by omega)]
    exact h2
  · have hlen : A.length ≤ n := by omega
    rw [List.get?_append_right hlen] at h
    rcases Nat.eq_zero_or_pos (n - A.length) with hz | hp
    · rw [hz] at h
      exact absurd h (hhd u f)
    · obtain ⟨h1, h2⟩ := hB (n - A.length) u f h
      refine ⟨by omega, ?_⟩
      rw [List.get?_append_right (by omega)]
      have harith : n - 1 - A.length = n - A.length - 1 := by omega
      rw [harith]
      exact h2

theorem adjOK_jobEvs (js : List Job) : AdjOK (jobEvs js) := by
  induction js with
  | nil => exact adjOK_nil
  | cons jb r ih =>
    intro n u f h
    simp only [jobEvs, List.flatMap_cons] at h ⊢
    match n with
    | 0 => simp at h
    | 1 => exact ⟨by omega, by simp⟩
    | n + 2 =>
      simp only [List.cons_append, List.nil_append, List.get?_cons_succ] at h
      obtain ⟨h1, h2⟩ := ih n u f h
      refine ⟨by omega, ?_⟩
      have : n + 2 - 1 = (n - 1) + 1 + 1 := by omega
      rw [this]
      simp only [List.cons_append, List.nil_append, List.get?_cons_succ]
      exact h2

theorem parseDescription_empty (entropy : Nat → List Nat) (st : ScanSt) :
    parseDescription entropy "" st = ("", st) := rfl

theorem jobEvs_head_not_created (js : List Job) (u f : List Char) :
    (jobEvs js).get? 0 ≠ some (Ev.jobCreated u f) := by
  cases js with
  | nil => simp [jobEvs]
  | cons jb r => simp [jobEvs]

/-- The rendered description is embedded in the story page it was rendered
for. -/
theorem infix_storyHtml {l : List Char} (site : Site) (epics : List EpicData)
    (epic : EpicData) (story : StoryData) {r : String} (h : l <:+: r.data) :
    l <:+: (storyHtml site epics epic story r).data := by
  unfold storyHtml
  simp only [String.data_append]
  exact infix_ext_right _ (infix_ext_left _ h)

/-- The rendered description is embedded in the epic page it was rendered
for. -/
theorem infix_epicHtml {l : List Char} (site : Site) (epics : List EpicData)
    (epic : EpicData) {r : String} (h : l <:+: r.data) :
    l <:+: (epicHtml site epics epic r).data := by
  unfold epicHtml
  simp only [String.data_append]
  exact infix_ext_right _ (infix_ext_right _ (infix_ext_right _ (infix_ext_right _
    (infix_ext_right _ (infix_ext_right _ (infix_ext_right _ (infix_ext_right _
      (infix_ext_right _ (infix_ext_left _ h)))))))))

/-- Full specification of one story block. -/
theorem storyStep_spec (cfg : Config) (epic : EpicData) (story : StoryData)
    (acc : ScanSt) :
    ∃ js ms2 rendered2,
      storyStep cfg epic acc story =
        ⟨acc.ctr + js.length, acc.jobs ++ js,
          acc.evs ++ ([Ev.mkdirStory epic.id story.id] ++ jobEvs js ++
            [Ev.writeStory epic.id story.id
              (storyHtml cfg.site cfg.remote.epics epic story rendered2)]),
          acc.ms ++ ms2⟩ ∧
      (∀ jb ∈ js, ("/imgs/".data ++ jb.filename) <:+: rendered2.data) ∧
      (∀ k (h : k < js.length),
        (js.get ⟨k, h⟩).filename =
          hexOfBytes (cfg.entropy (acc.ctr + k)) ++ extOf (js.get ⟨k, h⟩).url) ∧
      (jsOr story.description "" = "" → rendered2 = "") := by
  obtain ⟨js, ms2, h1, c1, f1⟩ :=
    parseDescription_spec cfg.entropy (jsOr story.description "")
      (emit acc (Ev.mkdirStory epic.id story.id))
  refine ⟨js, ms2,
    (parseDescription cfg.entropy (jsOr story.description "")
      (emit acc (Ev.mkdirStory epic.id story.id))).1, ?_, c1, ?_, ?_⟩
  · show emit _ _ = _
    rw [h1]
    simp [emit, List.append_assoc]
  · intro k h
    have := f1 k h
    simpa [emit] using this
  · intro hempty
    rw [hempty, parseDescription_empty]

/-- Splicing of the filename formula across an append of job lists. -/
theorem fname_splice {entropy : Nat → List Nat} {js1 js2 : List Job} {c0 : Nat}
    (f1 : ∀ k (h : k < js1.length),
      (js1.get ⟨k, h⟩).filename =
        hexOfBytes (entropy (c0 + k)) ++ extOf (js1.get ⟨k, h⟩).url)
    (f2 : ∀ k (h : k < js2.length),
      (js2.get ⟨k, h⟩).filename =
        hexOfBytes (entropy (c0 + js1.length + k)) ++ extOf (js2.get ⟨k, h⟩).url) :
    ∀ k (h : k < (js1 ++ js2).length),
      ((js1 ++ js2).get ⟨k, h⟩).filename =
        hexOfBytes (entropy (c0 + k)) ++ extOf ((js1 ++ js2).get ⟨k, h⟩).url := by
  intro k h
  simp only [List.get_eq_getElem] at *
  by_cases hk : k < js1.length
  · rw [List.getElem_append_left hk]
    exact f1 k hk
  · have hlen : js1.length ≤ k := by omega
    rw [List.length_append] at h
    have hk2 : k - js1.length < js2.length := by omega
    rw [List.getElem_append_right hlen]
    have := f2 (k - js1.length) hk2
    rw [this]
    have harith : c0 + js1.length + (k - js1.length) = c0 + k := by omega
    rw [harith]

/-- Full specification of a run of story blocks. -/
theorem storiesFold_spec (cfg : Config) (epic : EpicData) :
    ∀ (stories : List StoryData) (sc : ScanSt), ∃ js d ms2,
      stories.foldl (storyStep cfg epic) sc =
        ⟨sc.ctr + js.length, sc.jobs ++ js, sc.evs ++ d, sc.ms ++ ms2⟩ ∧
      createdIn d = js ∧
      (∀ e ∈ d, isStoryBlockEv epic.id e = true) ∧
      AdjOK d ∧
      (∀ u f, d.get? 0 ≠ some (Ev.jobCreated u f)) ∧
      (∀ jb ∈ js, ∃ e, e ∈ d ∧ e.isPageWrite = true ∧
        ("/imgs/".data ++ jb.filename) <:+: (contentOf e).data) ∧
      (∀ k (h : k < js.length),
        (js.get ⟨k, h⟩).filename =
          hexOfBytes (cfg.entropy (sc.ctr + k)) ++ extOf (js.get ⟨k, h⟩).url) ∧
      (∀ story ∈ stories, ∃ rendered2,
        Ev.writeStory epic.id story.id
          (storyHtml cfg.site cfg.remote.epics epic story rendered2) ∈ d ∧
        (jsOr story.description "" = "" → rendered2 = "")) := by
  intro stories
  induction stories with
  | nil =>
    intro sc
    refine ⟨[], [], [], by simp, rfl, ?_, adjOK_nil, ?_, ?_, ?_, ?_⟩
    · intro e he
      simp at he
    · intro u f
      simp
    · intro jb hjb
      simp at hjb
    · intro k h
      simp at h
    · intro story hs
      simp at hs
  | cons s rest ih =>
    intro sc
    obtain ⟨js1, ms1, rendered1, hstep, c1, f1, e1⟩ := storyStep_spec cfg epic s sc
    obtain ⟨js2, d2, ms2, hfold, cr2, blk2, adj2, hd2, cov2, f2, pages2⟩ :=
      ih (storyStep cfg epic sc s)
    refine ⟨js1 ++ js2,
      ([Ev.mkdirStory epic.id s.id] ++ jobEvs js1 ++
        [Ev.writeStory epic.id s.id
          (storyHtml cfg.site cfg.remote.epics epic s rendered1)]) ++ d2,
      ms1 ++ ms2, ?_, ?_, ?_, ?_, ?_, ?_, ?_, ?_⟩
    · simp only [List.foldl_cons]
      rw [hfold, hstep]
      simp only [ScanSt.mk.injEq, List.length_append, List.append_assoc]
      exact ⟨by omega, trivial, trivial, trivial⟩
    · rw [createdIn_append, createdIn_append, createdIn_append, createdIn_jobEvs, cr2]
      simp [createdIn]
    · intro e he
      rcases List.mem_append.mp he with h1 | h1
      · rcases List.mem_append.mp h1 with h2 | h2
        · rcases List.mem_append.mp h2 with h3 | h3
          · simp at h3
            subst h3
            simp [isStoryBlockEv]
          · rcases mem_jobEvs h3 with h4 | ⟨u, f, h4⟩ <;> subst h4 <;>
              simp [isStoryBlockEv]
        · simp at h1 h2
          subst h2
          simp [isStoryBlockEv]
      · exact blk2 e h1
    · refine adjOK_append (adjOK_append (adjOK_append ?_ (adjOK_jobEvs js1) ?_) ?_ ?_)
        adj2 hd2
      · exact adjOK_single (by intro u f h; simp at h)
      · exact jobEvs_head_not_created js1
      · exact adjOK_single (by intro u f h; simp at h)
      · intro u f
        simp
    · intro u f
      simp
    · intro jb hjb
      rcases List.mem_append.mp hjb with h1 | h1
      · refine ⟨Ev.writeStory epic.id s.id
          (storyHtml cfg.site cfg.remote.epics epic s rendered1), by simp, rfl, ?_⟩
        simp only [contentOf]
        exact infix_storyHtml cfg.site cfg.remote.epics epic s (c1 jb h1)
      · obtain ⟨e, he, hw, hi⟩ := cov2 jb h1
        exact ⟨e, List.mem_append.mpr (Or.inr he), hw, hi⟩
    · have hctr : (storyStep cfg epic sc s).ctr = sc.ctr + js1.length := by
        rw [hstep]
      refine fname_splice f1 ?_
      intro k h
      have := f2 k h
      rw [hctr] at this
      exact this
    · intro story hs
      rcases List.mem_cons.mp hs with h1 | h1
      · subst h1
        exact ⟨rendered1, by simp, e1⟩
      · obtain ⟨rendered2, hmem, hemp⟩ := pages2 story h1
        exact ⟨rendered2, List.mem_append.mpr (Or.inr hmem), hemp⟩

theorem storyBlock_subtree {eid : Nat} {e : Ev} (h : isStoryBlockEv eid e = true) :
    e.isSubtreeEv = true := by
  cases e <;> simp [isStoryBlockEv, Ev.isSubtreeEv] at *

/-- Full specification of one epic segment: its state footprint, the exact
correspondence between created jobs and `jobCreated` events, the classification
and internal ordering of the emitted events, the `/imgs/` coverage of every
created job by a page written in the same segment, the filename formula, and
the presence of the epic page and one page per story. -/
theorem epicSegment_spec (cfg : Config) (epic : EpicData) (sc : ScanSt) :
    ∃ js d ms2 rendered1,
      epicSegment cfg epic sc =
        ⟨sc.ctr + js.length, sc.jobs ++ js, sc.evs ++ d, sc.ms ++ ms2⟩ ∧
      createdIn d = js ∧
      (∀ e ∈ d, e.isSubtreeEv = true) ∧
      AdjOK d ∧
      StoryAfterOK d ∧
      (∀ jb ∈ js, ∃ e, e ∈ d ∧ e.isPageWrite = true ∧
        ("/imgs/".data ++ jb.filename) <:+: (contentOf e).data) ∧
      (∀ k (h : k < js.length),
        (js.get ⟨k, h⟩).filename =
          hexOfBytes (cfg.entropy (sc.ctr + k)) ++ extOf (js.get ⟨k, h⟩).url) ∧
      Ev.writeEpic epic.id (epicHtml cfg.site cfg.remote.epics epic rendered1) ∈ d ∧
      (epic.description = "" → rendered1 = "") ∧
      (∀ story ∈ epic.stories, ∃ rendered2,
        Ev.writeStory epic.id story.id
          (storyHtml cfg.site cfg.remote.epics epic story rendered2) ∈ d ∧
        (jsOr story.description "" = "" → rendered2 = "")) ∧
      (∀ u f, d.get? 0 ≠ some (Ev.jobCreated u f)) := by
  obtain ⟨js0, ms0, hrd, cov0, f0⟩ :=
    parseDescription_spec cfg.entropy epic.description (emit sc (Ev.mkdirEpic epic.id))
  obtain ⟨js2, d2, ms2, hfold, cr2, blk2, adj2, hd2, cov2, f2, pages2⟩ :=
    storiesFold_spec cfg epic epic.stories
      (emit (parseDescription cfg.entropy epic.description
          (emit sc (Ev.mkdirEpic epic.id))).2
        (Ev.writeEpic epic.id (epicHtml cfg.site cfg.remote.epics epic
          (parseDescription cfg.entropy epic.description
            (emit sc (Ev.mkdirEpic epic.id))).1)))
  refine ⟨js0 ++ js2,
    ([Ev.mkdirEpic epic.id] ++ jobEvs js0 ++
      [Ev.writeEpic epic.id (epicHtml cfg.site cfg.remote.epics epic
        (parseDescription cfg.entropy epic.description
          (emit sc (Ev.mkdirEpic epic.id))).1)]) ++ d2,
    ms0 ++ ms2,
    (parseDescription cfg.entropy epic.description
      (emit sc (Ev.mkdirEpic epic.id))).1,
    ?_, ?_, ?_, ?_, ?_, ?_, ?_, ?_, ?_, ?_, ?_⟩
  · rw [show epicSegment cfg epic sc = epic.stories.foldl (storyStep cfg epic)
        (emit (parseDescription cfg.entropy epic.description
            (emit sc (Ev.mkdirEpic epic.id))).2
          (Ev.writeEpic epic.id (epicHtml cfg.site cfg.remote.epics epic
            (parseDescription cfg.entropy epic.description
              (emit sc (Ev.mkdirEpic epic.id))).1))) from rfl]
    rw [hfold, hrd]
    simp only [emit, ScanSt.mk.injEq, List.length_append, List.append_assoc]
    exact ⟨by omega, trivial, trivial, trivial⟩
  · rw [createdIn_append, createdIn_append, createdIn_append, createdIn_jobEvs, cr2]
    simp [createdIn]
  · intro e he
    rcases List.mem_append.mp he with h1 | h1
    · rcases List.mem_append.mp h1 with h2 | h2
      · rcases List.mem_append.mp h2 with h3 | h3
        · simp at h3
          subst h3
          rfl
        · rcases mem_jobEvs h3 with h4 | ⟨u, f, h4⟩ <;> subst h4 <;> rfl
      · simp at h2
        subst h2
        rfl
    · exact storyBlock_subtree (blk2 e h1)
  · refine adjOK_append (adjOK_append (adjOK_append ?_ (adjOK_jobEvs js0) ?_) ?_ ?_)
      adj2 hd2
    · exact adjOK_single (by intro u f h; simp at h)
    · exact jobEvs_head_not_created js0
    · exact adjOK_single (by intro u f h; simp at h)
    · intro u f
      simp
  · intro n eid sid c hn
    by_cases hlt : n < ([Ev.mkdirEpic epic.id] ++ jobEvs js0 ++
        [Ev.writeEpic epic.id (epicHtml cfg.site cfg.remote.epics epic
          (parseDescription cfg.entropy epic.description
            (emit sc (Ev.mkdirEpic epic.id))).1)]).length
    · exfalso
      rw [List.get?_append hlt] at hn
      have hmem := List.get?_mem hn
      rcases List.mem_append.mp hmem with h1 | h1
      · rcases List.mem_append.mp h1 with h2 | h2
        · simp at h2
        · rcases mem_jobEvs h2 with h3 | ⟨u, f, h3⟩ <;> simp at h3
      · simp at h1
    · have hge : ([Ev.mkdirEpic epic.id] ++ jobEvs js0 ++
          [Ev.writeEpic epic.id (epicHtml cfg.site cfg.remote.epics epic
            (parseDescription cfg.entropy epic.description
              (emit sc (Ev.mkdirEpic epic.id))).1)]).length ≤ n := by omega
      rw [List.get?_append_right hge] at hn
      have hmem := List.get?_mem hn
      have hblk := blk2 _ hmem
      have heid : eid = epic.id := by
        simp only [isStoryBlockEv, beq_iff_eq] at hblk
        exact hblk
      subst heid
      refine ⟨([Ev.mkdirEpic epic.id] ++ jobEvs js0).length,
        epicHtml cfg.site cfg.remote.epics epic
          (parseDescription cfg.entropy epic.description
            (emit sc (Ev.mkdirEpic epic.id))).1, ?_, ?_⟩
      · simp only [List.length_append, List.length_cons, List.length_nil] at hge ⊢
        omega
      · rw [List.get?_append (by simp [List.length_append])]
        exact List.get?_concat_length _ _
  · intro jb hjb
    rcases List.mem_append.mp hjb with h1 | h1
    · refine ⟨Ev.writeEpic epic.id (epicHtml cfg.site cfg.remote.epics epic
        (parseDescription cfg.entropy epic.description
          (emit sc (Ev.mkdirEpic epic.id))).1), by simp, rfl, ?_⟩
      simp only [contentOf]
      exact infix_epicHtml cfg.site cfg.remote.epics epic (cov0 jb h1)
    · obtain ⟨e, he, hw, hi⟩ := cov2 jb h1
      exact ⟨e, List.mem_append.mpr (Or.inr he), hw, hi⟩
  · have hctr : (emit (parseDescription cfg.entropy epic.description
        (emit sc (Ev.mkdirEpic epic.id))).2
        (Ev.writeEpic epic.id (epicHtml cfg.site cfg.remote.epics epic
          (parseDescription cfg.entropy epic.description
            (emit sc (Ev.mkdirEpic epic.id))).1))).ctr = sc.ctr + js0.length := by
      rw [show (emit (parseDescription cfg.entropy epic.description
          (emit sc (Ev.mkdirEpic epic.id))).2 (Ev.writeEpic epic.id
          (epicHtml cfg.site cfg.remote.epics epic
            (parseDescription cfg.entropy epic.description
              (emit sc (Ev.mkdirEpic epic.id))).1))).ctr =
        (parseDescription cfg.entropy epic.description
          (emit sc (Ev.mkdirEpic epic.id))).2.ctr from rfl]
      rw [hrd]
      rfl
    refine fname_splice ?_ ?_
    · intro k h
      exact f0 k h
    · intro k h
      have := f2 k h
      rw [hctr] at this
      exact this
  · exact List.mem_append.mpr (Or.inl (by simp))
  · intro hempty
    rw [hempty, parseDescription_empty]
  · intro story hs
    obtain ⟨rendered2, hmem, hemp⟩ := pages2 story hs
    exact ⟨rendered2, List.mem_append.mpr (Or.inr hmem), hemp⟩
  · intro u f
    simp

theorem createdIn_mem {jb : Job} {d : List Ev} (h : jb ∈ createdIn d) :
    Ev.jobCreated jb.url jb.filename ∈ d := by
  induction d with
  | nil => simp [createdIn] at h
  | cons e r ih =>
    cases e with
    | jobCreated u f =>
      simp only [createdIn, List.mem_cons] at h
      rcases h with h | h
      · subst h
        simp
      · exact List.mem_cons_of_mem _ (ih h)
    | _ =>
      simp only [createdIn] at h
      first
      | exact List.mem_cons_of_mem _ (ih h)

theorem storyAfterOK_append {A B : List Ev} (hA : StoryAfterOK A)
    (hB : StoryAfterOK B) : StoryAfterOK (A ++ B) := by
  intro n eid sid c hn
  by_cases hlt : n < A.length
  · rw [List.get?_append hlt] at hn
    obtain ⟨m, c2, hm, hget⟩ := hA n eid sid c hn
    exact ⟨m, c2, hm, by rw [List.get?_append (by omega)]; exact hget⟩
  · rw [List.get?_append_right (by omega)] at hn
    obtain ⟨m, c2, hm, hget⟩ := hB _ eid sid c hn
    refine ⟨A.length + m, c2, by omega, ?_⟩
    rw [List.get?_append_right (by omega)]
    have : A.length + m - A.length = m := by omega
    rw [this]
    exact hget

/-- A trace fragment free of story writes trivially satisfies the ordering. -/
theorem storyAfterOK_of_none {B : List Ev}
    (h : ∀ e ∈ B, ∀ eid sid c, e ≠ Ev.writeStory eid sid c) : StoryAfterOK B := by
  intro n eid sid c hn
  exact absurd rfl (h _ (List.get?_mem hn) eid sid c)

theorem runGen_sc (cfg : Config) :
    (runGen cfg).sc = ⟨0, [], genTrace cfg, []⟩ ∧
      (runGen cfg).ranEpics = [] ∧ (runGen cfg).settled = [] ∧
      (runGen cfg).genErr = (cfg.siteDirExists && cfg.rmFails) ∧
      (runGen cfg).isDone = !(cfg.siteDirExists && cfg.rmFails) := by
  cases hs : cfg.sitesDirExists <;> cases he : cfg.siteDirExists <;>
    cases hr : cfg.rmFails <;>
      simp [runGen, genTrace, emit, ScanSt.init, hs, he, hr]

/-- Every event of the deterministic prefix is one of its seven fixed kinds. -/
theorem genTrace_mem (cfg : Config) :
    ∀ e ∈ genTrace cfg,
      e = Ev.mkdirSites ∨ e = Ev.rmSiteDir ∨ e = Ev.mkdirSiteDir ∨
        (∃ c, e = Ev.writeHome c) ∨ e = Ev.resolveGenerate ∨
        e = Ev.captureJobs [] ∨ e = Ev.doneSignal := by
  intro e he
  unfold genTrace at he
  rcases List.mem_append.mp he with h1 | h1
  · rcases List.mem_append.mp h1 with h2 | h2
    · by_cases hs : cfg.sitesDirExists <;> simp [hs] at h2 <;> tauto
    · by_cases hd : cfg.siteDirExists <;> simp [hd] at h2 <;> tauto
  · by_cases hc : cfg.siteDirExists ∧ cfg.rmFails
    · simp [hc] at h1
    · simp only [if_neg hc, List.mem_cons, List.not_mem_nil, or_false] at h1
      rcases h1 with h | h | h | h | h
      · subst h
        tauto
      · subst h
        exact Or.inr (Or.inr (Or.inr (Or.inl ⟨_, rfl⟩)))
      · subst h
        tauto
      · subst h
        tauto
      · subst h
        tauto

theorem inv_runGen (cfg : Config) : Inv cfg (runGen cfg) := by
  obtain ⟨hsc, _, _, _, _⟩ := runGen_sc cfg
  have hmem := genTrace_mem cfg
  refine ⟨?_, ?_, ?_, ?_, ?_, ?_, ?_, ?_, ?_, ?_⟩
  · rw [hsc]
    rfl
  · intro k jb h
    rw [hsc] at h
    simp at h
  · intro u f h
    rw [hsc] at h
    rcases hmem _ h with h1 | h1 | h1 | ⟨c, h1⟩ | h1 | h1 | h1 <;> simp at h1
  · intro jb hjb
    rw [hsc] at hjb
    simp at hjb
  · intro n f ok h
    rw [hsc] at h
    rcases hmem _ (List.get?_mem h) with h1 | h1 | h1 | ⟨c, h1⟩ | h1 | h1 | h1 <;>
      simp at h1
  · intro n u f h
    rw [hsc] at h
    rcases hmem _ (List.get?_mem h) with h1 | h1 | h1 | ⟨c, h1⟩ | h1 | h1 | h1 <;>
      simp at h1
  · intro jb hjb
    rw [hsc] at hjb
    simp at hjb
  · intro f h
    rw [hsc] at h
    rcases hmem _ h with h1 | h1 | h1 | ⟨c, h1⟩ | h1 | h1 | h1 <;> simp at h1
  · intro f ok h
    rw [hsc] at h
    rcases hmem _ h with h1 | h1 | h1 | ⟨c, h1⟩ | h1 | h1 | h1 <;> simp at h1
  · intro n eid sid c h
    rw [hsc] at h
    rcases hmem _ (List.get?_mem h) with h1 | h1 | h1 | ⟨c2, h1⟩ | h1 | h1 | h1 <;>
      simp at h1

theorem adjOK_download (es : List Ev)
    (h : ∀ e ∈ es, ∀ u f, e ≠ Ev.jobCreated u f) : AdjOK es := by
  intro n u f hn
  exact absurd rfl (h _ (List.get?_mem hn) u f)

/-- One scheduler step preserves the run invariant. -/
theorem inv_step (cfg : Config) (st : St) (l : SchedLabel) (hI : Inv cfg st) :
    Inv cfg (stepRun cfg st l) := by
  cases l with
  | runEpic i =>
    by_cases hg : st.genErr = true
    · have hid : stepRun cfg st (SchedLabel.runEpic i) = st := by
        unfold stepRun
        simp only []
        rw [if_pos hg]
      rw [hid]
      exact hI
    · by_cases hr : i ∈ st.ranEpics
      · have hid : stepRun cfg st (SchedLabel.runEpic i) = st := by
          unfold stepRun
          simp only []
          rw [if_neg hg, if_pos hr]
        rw [hid]
        exact hI
      · cases hget : cfg.remote.epics.get? i with
        | none =>
          have hid : stepRun cfg st (SchedLabel.runEpic i) = st := by
            unfold stepRun
            simp only []
            rw [if_neg hg, if_neg hr, hget]
          rw [hid]
          exact hI
        | some epic =>
          have hst : stepRun cfg st (SchedLabel.runEpic i) =
              { st with sc := epicSegment cfg epic st.sc
                        ranEpics := st.ranEpics ++ [i] } := by
            unfold stepRun
            simp only []
            rw [if_neg hg, if_neg hr, hget]
          rw [hst]
          obtain ⟨js, d, ms2, rendered1, hseg, hcr, hsub, hadj, hsa, hcov, hf,
            _, _, _, hhd⟩ := epicSegment_spec cfg epic st.sc
          refine ⟨?_, ?_, ?_, ?_, ?_, ?_, ?_, ?_, ?_, ?_⟩
          · show (epicSegment cfg epic st.sc).ctr = (epicSegment cfg epic st.sc).jobs.length
            rw [hseg]
            simp only [List.length_append]
            have := hI.ctr_eq
            omega
          · intro k jb hjb
            show jb.filename = _
            rw [hseg] at hjb
            simp only at hjb
            by_cases hk : k < st.sc.jobs.length
            · rw [List.get?_append hk] at hjb
              exact hI.fname k jb hjb
            · rw [List.get?_append_right (by omega)] at hjb
              obtain ⟨hlt, hEq⟩ := List.get?_eq_some.mp hjb
              have hfk := hf (k - st.sc.jobs.length) hlt
              rw [hEq] at hfk
              rw [hfk]
              have harith : st.sc.ctr + (k - st.sc.jobs.length) = k := by
                have := hI.ctr_eq
                omega
              rw [harith]
          · intro u f h
            show Job.mk u f ∈ (epicSegment cfg epic st.sc).jobs
            rw [hseg] at h ⊢
            simp only at h ⊢
            rcases List.mem_append.mp h with h1 | h1
            · exact List.mem_append.mpr (Or.inl (hI.created_jobs u f h1))
            · refine List.mem_append.mpr (Or.inr ?_)
              have hmm := mem_createdIn h1
              rw [hcr] at hmm
              exact hmm
          · intro jb hjb
            show Ev.jobCreated jb.url jb.filename ∈ (epicSegment cfg epic st.sc).evs
            rw [hseg] at hjb ⊢
            simp only at hjb ⊢
            rcases List.mem_append.mp hjb with h1 | h1
            · exact List.mem_append.mpr (Or.inl (hI.jobs_created jb h1))
            · refine List.mem_append.mpr (Or.inr ?_)
              apply createdIn_mem
              rw [hcr]
              exact h1
          · intro n f ok h
            show ∃ m u, m < n ∧ (epicSegment cfg epic st.sc).evs.get? m = _
            rw [hseg] at h ⊢
            simp only at h ⊢
            by_cases hn : n < st.sc.evs.length
            · rw [List.get?_append hn] at h
              obtain ⟨m, u, hm, hget2⟩ := hI.settle_late n f ok h
              exact ⟨m, u, hm, by rw [List.get?_append (by omega)]; exact hget2⟩
            · rw [List.get?_append_right (by omega)] at h
              have hsub2 := hsub _ (List.get?_mem h)
              simp [Ev.isSubtreeEv] at hsub2
          · show AdjOK (epicSegment cfg epic st.sc).evs
            rw [hseg]
            exact adjOK_append hI.ensure_adj hadj hhd
          · intro jb hjb
            show ∃ e, e ∈ (epicSegment cfg epic st.sc).evs ∧ _
            rw [hseg] at hjb ⊢
            simp only at hjb ⊢
            rcases List.mem_append.mp hjb with h1 | h1
            · obtain ⟨e, he, hw, hi⟩ := hI.covered jb h1
              exact ⟨e, List.mem_append.mpr (Or.inl he), hw, hi⟩
            · obtain ⟨e, he, hw, hi⟩ := hcov jb h1
              exact ⟨e, List.mem_append.mpr (Or.inr he), hw, hi⟩
          · intro f h
            show ∃ jb, jb ∈ (epicSegment cfg epic st.sc).jobs ∧ _
            rw [hseg] at h ⊢
            simp only at h ⊢
            rcases List.mem_append.mp h with h1 | h1
            · obtain ⟨jb, hin, he, hok⟩ := hI.img_ok f h1
              exact ⟨jb, List.mem_append.mpr (Or.inl hin), he, hok⟩
            · have hsub2 := hsub _ h1
              simp [Ev.isSubtreeEv] at hsub2
          · intro f ok h
            show ∃ jb, jb ∈ (epicSegment cfg epic st.sc).jobs ∧ _
            rw [hseg] at h ⊢
            simp only at h ⊢
            rcases List.mem_append.mp h with h1 | h1
            · obtain ⟨jb, hin, he, hok⟩ := hI.settle_ok f ok h1
              exact ⟨jb, List.mem_append.mpr (Or.inl hin), he, hok⟩
            · have hsub2 := hsub _ h1
              simp [Ev.isSubtreeEv] at hsub2
          · show StoryAfterOK (epicSegment cfg epic st.sc).evs
            rw [hseg]
            exact storyAfterOK_append hI.story_after hsa
  | runDownload j =>
    by_cases hs : j ∈ st.settled
    · have hid : stepRun cfg st (SchedLabel.runDownload j) = st := by
        unfold stepRun
        simp only []
        rw [if_pos hs]
      rw [hid]
      exact hI
    · cases hget : st.sc.jobs.get? j with
      | none =>
        have hid : stepRun cfg st (SchedLabel.runDownload j) = st := by
          unfold stepRun
          simp only []
          rw [if_neg hs, hget]
        rw [hid]
        exact hI
      | some jb =>
        have hjb_mem : jb ∈ st.sc.jobs := List.get?_mem hget
        obtain ⟨m0, hm0⟩ := List.get?_of_mem (hI.jobs_created jb hjb_mem)
        obtain ⟨hm0lt, _⟩ := List.get?_eq_some.mp hm0
        by_cases hok : cfg.imgOk jb.url = true
        · have hst : stepRun cfg st (SchedLabel.runDownload j) =
              { st with
                sc := emit (emit st.sc (Ev.writeImg jb.filename))
                  (Ev.jobSettled jb.filename true)
                settled := st.settled ++ [j] } := by
            unfold stepRun
            simp only []
            rw [if_neg hs, hget]
            simp only [hok, if_true]
          rw [hst]
          have hevs : (emit (emit st.sc (Ev.writeImg jb.filename))
              (Ev.jobSettled jb.filename true)).evs =
              st.sc.evs ++ [Ev.writeImg jb.filename, Ev.jobSettled jb.filename true] := by
            simp [emit]
          refine ⟨hI.ctr_eq, hI.fname, ?_, ?_, ?_, ?_, ?_, ?_, ?_, ?_⟩
          · intro u f h
            show Job.mk u f ∈ st.sc.jobs
            rw [show (emit (emit st.sc (Ev.writeImg jb.filename))
                (Ev.jobSettled jb.filename true)).evs =
                st.sc.evs ++ [Ev.writeImg jb.filename, Ev.jobSettled jb.filename true]
              from hevs] at h
            rcases List.mem_append.mp h with h1 | h1
            · exact hI.created_jobs u f h1
            · simp at h1
          · intro jb2 hjb2
            show Ev.jobCreated jb2.url jb2.filename ∈ _
            rw [hevs]
            exact List.mem_append.mpr (Or.inl (hI.jobs_created jb2 hjb2))
          · intro n f ok h
            show ∃ m u, m < n ∧ _
            rw [hevs] at h ⊢
            by_cases hn : n < st.sc.evs.length
            · rw [List.get?_append hn] at h
              obtain ⟨m, u, hm, hget2⟩ := hI.settle_late n f ok h
              exact ⟨m, u, hm, by rw [List.get?_append (by omega)]; exact hget2⟩
            · rw [List.get?_append_right (by omega)] at h
              have hf_eq : f = jb.filename := by
                rcases hp : n - st.sc.evs.length with _ | p
                · rw [hp] at h
                  simp at h
                · rw [hp] at h
                  rcases p with _ | p2
                  · simp at h
                    exact h.1.symm
                  · simp at h
              refine ⟨m0, jb.url, by omega, ?_⟩
              rw [List.get?_append (by omega), hf_eq]
              exact hm0
          · show AdjOK _
            rw [hevs]
            refine adjOK_append hI.ensure_adj (adjOK_download _ ?_) ?_
            · intro e he u f
              simp at he
              rcases he with he | he
              · subst he
                simp
              · subst he
                simp
            · intro u f
              simp
          · intro jb2 hjb2
            show ∃ e, e ∈ _ ∧ _
            rw [hevs]
            obtain ⟨e, he, hw, hi⟩ := hI.covered jb2 hjb2
            exact ⟨e, List.mem_append.mpr (Or.inl he), hw, hi⟩
          · intro f h
            show ∃ jb2, jb2 ∈ st.sc.jobs ∧ _
            rw [hevs] at h
            rcases List.mem_append.mp h with h1 | h1
            · exact hI.img_ok f h1
            · simp at h1
              exact ⟨jb, hjb_mem, h1.symm, hok⟩
          · intro f ok h
            show ∃ jb2, jb2 ∈ st.sc.jobs ∧ _
            rw [hevs] at h
            rcases List.mem_append.mp h with h1 | h1
            · exact hI.settle_ok f ok h1
            · simp at h1
              obtain ⟨h2, h3⟩ := h1
              refine ⟨jb, hjb_mem, h2.symm, ?_⟩
              rw [h3]
              exact hok
          · show StoryAfterOK _
            rw [hevs]
            refine storyAfterOK_append hI.story_after (storyAfterOK_of_none ?_)
            intro e he eid sid c
            simp at he
            rcases he with he | he
            · subst he
              simp
            · subst he
              simp
        · have hst : stepRun cfg st (SchedLabel.runDownload j) =
              { st with
                sc := emit st.sc (Ev.jobSettled jb.filename false)
                settled := st.settled ++ [j] } := by
            unfold stepRun
            simp only []
            rw [if_neg hs, hget]
            simp only [Bool.not_eq_true] at hok
            simp only [hok, Bool.false_eq_true, if_false]
          rw [hst]
          have hevs : (emit st.sc (Ev.jobSettled jb.filename false)).evs =
              st.sc.evs ++ [Ev.jobSettled jb.filename false] := by
            simp [emit]
          refine ⟨hI.ctr_eq, hI.fname, ?_, ?_, ?_, ?_, ?_, ?_, ?_, ?_⟩
          · intro u f h
            show Job.mk u f ∈ st.sc.jobs
            rw [hevs] at h
            rcases List.mem_append.mp h with h1 | h1
            · exact hI.created_jobs u f h1
            · simp at h1
          · intro jb2 hjb2
            show Ev.jobCreated jb2.url jb2.filename ∈ _
            rw [hevs]
            exact List.mem_append.mpr (Or.inl (hI.jobs_created jb2 hjb2))
          · intro n f ok h
            show ∃ m u, m < n ∧ _
            rw [hevs] at h ⊢
            by_cases hn : n < st.sc.evs.length
            · rw [List.get?_append hn] at h
              obtain ⟨m, u, hm, hget2⟩ := hI.settle_late n f ok h
              exact ⟨m, u, hm, by rw [List.get?_append (by omega)]; exact hget2⟩
            · rw [List.get?_append_right (by omega)] at h
              have hf_eq : f = jb.filename := by
                rcases hp : n - st.sc.evs.length with _ | p
                · rw [hp] at h
                  simp at h
                  exact h.1.symm
                · rw [hp] at h
                  simp at h
              refine ⟨m0, jb.url, by omega, ?_⟩
              rw [List.get?_append (by omega), hf_eq]
              exact hm0
          · show AdjOK _
            rw [hevs]
            refine adjOK_append hI.ensure_adj (adjOK_download _ ?_) ?_
            · intro e he u f
              simp at he
              subst he
              simp
            · intro u f
              simp
          · intro jb2 hjb2
            show ∃ e, e ∈ _ ∧ _
            rw [hevs]
            obtain ⟨e, he, hw, hi⟩ := hI.covered jb2 hjb2
            exact ⟨e, List.mem_append.mpr (Or.inl he), hw, hi⟩
          · intro f h
            show ∃ jb2, jb2 ∈ st.sc.jobs ∧ _
            rw [hevs] at h
            rcases List.mem_append.mp h with h1 | h1
            · exact hI.img_ok f h1
            · simp at h1
          · intro f ok h
            show ∃ jb2, jb2 ∈ st.sc.jobs ∧ _
            rw [hevs] at h
            rcases List.mem_append.mp h with h1 | h1
            · exact hI.settle_ok f ok h1
            · simp at h1
              obtain ⟨h2, h3⟩ := h1
              refine ⟨jb, hjb_mem, h2.symm, ?_⟩
              rw [h3]
              simpa using hok
          · show StoryAfterOK _
            rw [hevs]
            refine storyAfterOK_append hI.story_after (storyAfterOK_of_none ?_)
            intro e he eid sid c
            simp at he
            subst he
            simp

/-- The invariant holds at the end of every run. -/
theorem inv_runApp (cfg : Config) (sched : List SchedLabel) :
    Inv cfg (runApp cfg sched) := by
  unfold runApp
  have key : ∀ (sch : List SchedLabel) (st : St), Inv cfg st →
      Inv cfg (sch.foldl (stepRun cfg) st) := by
    intro sch
    induction sch with
    | nil => intro st h; exact h
    | cons l rest ih =>
      intro st h
      exact ih _ (inv_step cfg st l h)
  exact key sched _ (inv_runGen cfg)

/-- Scheduler steps never change the completion flag or the error flag: only
the deterministic prefix decides them. -/
theorem stepRun_flags (cfg : Config) (st : St) (l : SchedLabel) :
    (stepRun cfg st l).isDone = st.isDone ∧ (stepRun cfg st l).genErr = st.genErr := by
  cases l with
  | runEpic i =>
    unfold stepRun
    simp only []
    by_cases hg : st.genErr = true
    · rw [if_pos hg]
      exact ⟨rfl, rfl⟩
    · rw [if_neg hg]
      by_cases hr : i ∈ st.ranEpics
      · rw [if_pos hr]
        exact ⟨rfl, rfl⟩
      · rw [if_neg hr]
        cases cfg.remote.epics.get? i <;> exact ⟨rfl, rfl⟩
  | runDownload j =>
    unfold stepRun
    simp only []
    by_cases hs : j ∈ st.settled
    · rw [if_pos hs]
      exact ⟨rfl, rfl⟩
    · rw [if_neg hs]
      cases st.sc.jobs.get? j with
      | none => exact ⟨rfl, rfl⟩
      | some jb =>
        show ((if cfg.imgOk jb.url = true then _ else _ : St)).isDone = _ ∧
          ((if cfg.imgOk jb.url = true then _ else _ : St)).genErr = _
        by_cases hok : cfg.imgOk jb.url = true
        · rw [if_pos hok]
          exact ⟨rfl, rfl⟩
        · rw [if_neg hok]
          exact ⟨rfl, rfl⟩

theorem runApp_flags (cfg : Config) (sched : List SchedLabel) :
    (runApp cfg sched).isDone = (runGen cfg).isDone ∧
      (runApp cfg sched).genErr = (runGen cfg).genErr := by
  unfold runApp
  have key : ∀ (sch : List SchedLabel) (st : St),
      (sch.foldl (stepRun cfg) st).isDone = st.isDone ∧
        (sch.foldl (stepRun cfg) st).genErr = st.genErr := by
    intro sch
    induction sch with
    | nil => intro st; exact ⟨rfl, rfl⟩
    | cons l rest ih =>
      intro st
      obtain ⟨h1, h2⟩ := ih (stepRun cfg st l)
      obtain ⟨h3, h4⟩ := stepRun_flags cfg st l
      rw [List.foldl_cons]
      exact ⟨h1.trans h3, h2.trans h4⟩
  exact key sched _

theorem stepRun_trace_ext (cfg : Config) (st : St) (l : SchedLabel) :
    ∃ d, (stepRun cfg st l).sc.evs = st.sc.evs ++ d := by
  cases l with
  | runEpic i =>
    by_cases hg : st.genErr = true
    · exact ⟨[], by unfold stepRun; simp only []; rw [if_pos hg]; simp⟩
    · by_cases hr : i ∈ st.ranEpics
      · exact ⟨[], by unfold stepRun; simp only []; rw [if_neg hg, if_pos hr]; simp⟩
      · cases hget : cfg.remote.epics.get? i with
        | none =>
          exact ⟨[], by unfold stepRun; simp only []; rw [if_neg hg, if_neg hr, hget]; simp⟩
        | some epic =>
          obtain ⟨js, d, ms2, rendered1, hseg, _⟩ := epicSegment_spec cfg epic st.sc
          refine ⟨d, ?_⟩
          unfold stepRun
          simp only []
          rw [if_neg hg, if_neg hr, hget]
          show (epicSegment cfg epic st.sc).evs = _
          rw [hseg]
  | runDownload j =>
    by_cases hs : j ∈ st.settled
    · exact ⟨[], by unfold stepRun; simp only []; rw [if_pos hs]; simp⟩
    · cases hget : st.sc.jobs.get? j with
      | none => exact ⟨[], by unfold stepRun; simp only []; rw [if_neg hs, hget]; simp⟩
      | some jb =>
        by_cases hok : cfg.imgOk jb.url = true
        · refine ⟨[Ev.writeImg jb.filename, Ev.jobSettled jb.filename true], ?_⟩
          unfold stepRun
          simp only []
          rw [if_neg hs, hget]
          simp only [hok, if_true]
          simp [emit]
        · refine ⟨[Ev.jobSettled jb.filename false], ?_⟩
          unfold stepRun
          simp only []
          rw [if_neg hs, hget]
          simp only [Bool.not_eq_true] at hok
          simp only [hok, Bool.false_eq_true, if_false]
          simp [emit]

/-- Every run's trace extends the deterministic prefix. -/
theorem runApp_trace_ext (cfg : Config) (sched : List SchedLabel) :
    ∃ rest, (runApp cfg sched).sc.evs = genTrace cfg ++ rest := by
  unfold runApp
  have key : ∀ (sch : List SchedLabel) (st : St),
      ∃ rest, (sch.foldl (stepRun cfg) st).sc.evs = st.sc.evs ++ rest := by
    intro sch
    induction sch with
    | nil => intro st; exact ⟨[], by simp⟩
    | cons l rest ih =>
      intro st
      obtain ⟨d1, h1⟩ := stepRun_trace_ext cfg st l
      obtain ⟨d2, h2⟩ := ih (stepRun cfg st l)
      refine ⟨d1 ++ d2, ?_⟩
      rw [List.foldl_cons, h2, h1, List.append_assoc]
  obtain ⟨rest, h⟩ := key sched (runGen cfg)
  refine ⟨rest, ?_⟩
  rw [h, (runGen_sc cfg).1]

/-- When the removal of the existing site directory fails, the whole run is
stuck at the rejected state: the epic callbacks were never launched and no
downloads exist, so every scheduler step is a no-op. -/
theorem runApp_err (cfg : Config) (h1 : cfg.siteDirExists = true)
    (h2 : cfg.rmFails = true) (sched : List SchedLabel) :
    runApp cfg sched = runGen cfg := by
  unfold runApp
  have key : ∀ (sch : List SchedLabel) (st : St), st.genErr = true →
      st.sc.jobs = [] → sch.foldl (stepRun cfg) st = st := by
    intro sch
    induction sch with
    | nil => intro st _ _; rfl
    | cons l rest ih =>
      intro st hg hj
      have hfix : stepRun cfg st l = st := by
        cases l with
        | runEpic i =>
          unfold stepRun
          simp only []
          rw [if_pos hg]
        | runDownload j =>
          unfold stepRun
          simp only []
          by_cases hs : j ∈ st.settled
          · rw [if_pos hs]
          · rw [if_neg hs, show st.sc.jobs.get? j = none from by rw [hj]; rfl]
      rw [List.foldl_cons, hfix]
      exact ih st hg hj
  refine key sched _ ?_ ?_
  · rw [(runGen_sc cfg).2.2.2.1, h1, h2]
    rfl
  · rw [(runGen_sc cfg).1]

/-- Events of the deterministic prefix are never subtree events. -/
theorem genTrace_no_subtree (cfg : Config) :
    ∀ e ∈ genTrace cfg, e.isSubtreeEv = false := by
  intro e he
  rcases genTrace_mem cfg e he with h | h | h | ⟨c, h⟩ | h | h | h <;> subst h <;> rfl

theorem stepRun_ranEpics (cfg : Config) (st : St) (l : SchedLabel) :
    (stepRun cfg st l).ranEpics = st.ranEpics ∨
      ∃ j, l = SchedLabel.runEpic j ∧
        (stepRun cfg st l).ranEpics = st.ranEpics ++ [j] := by
  cases l with
  | runEpic i =>
    unfold stepRun
    simp only []
    by_cases hg : st.genErr = true
    · rw [if_pos hg]
      exact Or.inl rfl
    · rw [if_neg hg]
      by_cases hr : i ∈ st.ranEpics
      · rw [if_pos hr]
        exact Or.inl rfl
      · rw [if_neg hr]
        cases cfg.remote.epics.get? i with
        | none => exact Or.inl rfl
        | some epic => exact Or.inr ⟨i, rfl, rfl⟩
  | runDownload j =>
    unfold stepRun
    simp only []
    by_cases hs : j ∈ st.settled
    · rw [if_pos hs]
      exact Or.inl rfl
    · rw [if_neg hs]
      cases st.sc.jobs.get? j with
      | none => exact Or.inl rfl
      | some jb =>
        refine Or.inl ?_
        show ((if cfg.imgOk jb.url = true then _ else _ : St)).ranEpics = _
        by_cases hok : cfg.imgOk jb.url = true
        · rw [if_pos hok]
        · rw [if_neg hok]

theorem epicDone_ext {cfg : Config} {epic : EpicData} {evs d : List Ev}
    (h : EpicDone cfg epic evs) : EpicDone cfg epic (evs ++ d) := by
  obtain ⟨⟨r1, h1, h2⟩, h3⟩ := h
  refine ⟨⟨r1, List.mem_append.mpr (Or.inl h1), h2⟩, ?_⟩
  intro story hs
  obtain ⟨r2, h4, h5⟩ := h3 story hs
  exact ⟨r2, List.mem_append.mpr (Or.inl h4), h5⟩

/-- In any error-free run whose scheduler delivers epic `i`'s responses, epic
`i`'s callback leaves its full footprint in the trace. -/
theorem epic_events (cfg : Config) (i : Nat) (epic : EpicData)
    (hget : cfg.remote.epics.get? i = some epic) :
    ∀ (sch : List SchedLabel) (st : St), st.genErr = false →
      (SchedLabel.runEpic i ∈ sch ∨ i ∈ st.ranEpics) →
      (i ∈ st.ranEpics → EpicDone cfg epic st.sc.evs) →
      EpicDone cfg epic (sch.foldl (stepRun cfg) st).sc.evs := by
  intro sch
  induction sch with
  | nil =>
    intro st _ hor hinv
    rcases hor with h | h
    · exact absurd h (List.not_mem_nil _)
    · exact hinv h
  | cons l rest ih =>
    intro st hg hor hinv
    rw [List.foldl_cons]
    have hg2 : (stepRun cfg st l).genErr = false := by
      rw [(stepRun_flags cfg st l).2]
      exact hg
    have hgne : ¬ (st.genErr = true) := by simp [hg]
    by_cases hcase : l = SchedLabel.runEpic i ∧ i ∉ st.ranEpics
    · obtain ⟨hl, hr⟩ := hcase
      subst hl
      have hstep : stepRun cfg st (SchedLabel.runEpic i) =
          { st with
            sc := epicSegment cfg epic st.sc
            ranEpics := st.ranEpics ++ [i] } := by
        unfold stepRun
        simp only []
        rw [if_neg hgne, if_neg hr, hget]
      rw [hstep]
      refine ih _ hg (Or.inr (by simp)) ?_
      intro _
      obtain ⟨js, d, ms2, r1, hshape, _, _, _, _, _, _, hwe, hemp, hstories, _⟩ :=
        epicSegment_spec cfg epic st.sc
      show EpicDone cfg epic (epicSegment cfg epic st.sc).evs
      rw [hshape]
      show EpicDone cfg epic (st.sc.evs ++ d)
      refine ⟨⟨r1, List.mem_append.mpr (Or.inr hwe), hemp⟩, ?_⟩
      intro story hs
      obtain ⟨r2, hmem, hjs⟩ := hstories story hs
      exact ⟨r2, List.mem_append.mpr (Or.inr hmem), hjs⟩
    · obtain ⟨d, hd⟩ := stepRun_trace_ext cfg st l
      have hran : i ∈ (stepRun cfg st l).ranEpics ↔ i ∈ st.ranEpics := by
        rcases stepRun_ranEpics cfg st l with h | ⟨j, hlj, h⟩
        · rw [h]
        · subst hlj
          rw [h, List.mem_append]
          constructor
          · intro hx
            rcases hx with hx | hx
            · exact hx
            · simp only [List.mem_singleton] at hx
              subst hx
              by_cases hmem : i ∈ st.ranEpics
              · exact hmem
              · exact absurd ⟨rfl, hmem⟩ hcase
          · exact fun hx => Or.inl hx
      refine ih _ hg2 ?_ ?_
      · rcases hor with h | h
        · rcases List.mem_cons.mp h with h1 | h1
          · have hmem : i ∈ st.ranEpics := by
              by_contra hmem
              exact hcase ⟨h1.symm, hmem⟩
            exact Or.inr (hran.mpr hmem)
          · exact Or.inl h1
        · exact Or.inr (hran.mpr h)
      · intro hi
        rw [hd]
        exact epicDone_ext (hinv (hran.mp hi))

/-- Claim C1, counterexample: in the one-epic run `cfgC`, the promise of
`generateSite` resolves (index of `resolveGenerate`) strictly before the epic
page and the story page are written, both of which do occur in the trace — the
spec's "resolves only after every page has been written" fails. -/
theorem C1_counterexample :
    ((runApp cfgC [SchedLabel.runEpic 0]).trace.findIdx Ev.isResolveEv <
      (runApp cfgC [SchedLabel.runEpic 0]).trace.findIdx Ev.isWriteEpicEv) ∧
    ((runApp cfgC [SchedLabel.runEpic 0]).trace.findIdx Ev.isWriteEpicEv <
      (runApp cfgC [SchedLabel.runEpic 0]).trace.length) ∧
    ((runApp cfgC [SchedLabel.runEpic 0]).trace.findIdx Ev.isResolveEv <
      (runApp cfgC [SchedLabel.runEpic 0]).trace.findIdx Ev.isWriteStoryEv) ∧
    ((runApp cfgC [SchedLabel.runEpic 0]).trace.findIdx Ev.isWriteStoryEv <
      (runApp cfgC [SchedLabel.runEpic 0]).trace.length) := by
  decide

/-- Claim C1, amended: in every run that does not abort, `generateSite`'s
promise resolves after the home page has been written but before any event of
any epic subtree — in particular before every epic page and story page
write. -/
theorem C1_resolve_after_home (cfg : Config) (sched : List SchedLabel)
    (hfs : cfg.siteDirExists = false ∨ cfg.rmFails = false) :
    ∃ i j c, i < j ∧
      (runApp cfg sched).trace.get? i = some (Ev.writeHome c) ∧
      (runApp cfg sched).trace.get? j = some Ev.resolveGenerate ∧
      ∀ k e, (runApp cfg sched).trace.get? k = some e →
        e.isSubtreeEv = true → j < k := by
  obtain ⟨rest, hext⟩ := runApp_trace_ext cfg sched
  have hcond : ¬ (cfg.siteDirExists = true ∧ cfg.rmFails = true) := by
    rcases hfs with h | h <;> simp [h]
  have hgt : genTrace cfg =
      ((if cfg.sitesDirExists then ([] : List Ev) else [Ev.mkdirSites]) ++
        (if cfg.siteDirExists then [Ev.rmSiteDir] else [])) ++
      [Ev.mkdirSiteDir,
        Ev.writeHome (homeHtml cfg.remote.milestone cfg.remote.epics),
        Ev.resolveGenerate, Ev.captureJobs [], Ev.doneSignal] := by
    unfold genTrace
    rw [if_neg hcond, List.append_assoc]
  have hlen5 : (genTrace cfg).length =
      ((if cfg.sitesDirExists then ([] : List Ev) else [Ev.mkdirSites]) ++
        (if cfg.siteDirExists then [Ev.rmSiteDir] else [])).length + 5 := by
    rw [hgt, List.length_append]
    rfl
  refine ⟨((if cfg.sitesDirExists then ([] : List Ev) else [Ev.mkdirSites]) ++
      (if cfg.siteDirExists then [Ev.rmSiteDir] else [])).length + 1,
    ((if cfg.sitesDirExists then ([] : List Ev) else [Ev.mkdirSites]) ++
      (if cfg.siteDirExists then [Ev.rmSiteDir] else [])).length + 2,
    homeHtml cfg.remote.milestone cfg.remote.epics, by omega, ?_, ?_, ?_⟩
  · show (runApp cfg sched).sc.evs.get? _ = _
    rw [hext, hgt, List.append_assoc, List.get?_append_right (by omega),
      show (((if cfg.sitesDirExists then ([] : List Ev) else [Ev.mkdirSites]) ++
        (if cfg.siteDirExists then [Ev.rmSiteDir] else [])).length + 1) -
        ((if cfg.sitesDirExists then ([] : List Ev) else [Ev.mkdirSites]) ++
          (if cfg.siteDirExists then [Ev.rmSiteDir] else [])).length = 1 from by omega,
      List.get?_append (by simp)]
    rfl
  · show (runApp cfg sched).sc.evs.get? _ = _
    rw [hext, hgt, List.append_assoc, List.get?_append_right (by omega),
      show (((if cfg.sitesDirExists then ([] : List Ev) else [Ev.mkdirSites]) ++
        (if cfg.siteDirExists then [Ev.rmSiteDir] else [])).length + 2) -
        ((if cfg.sitesDirExists then ([] : List Ev) else [Ev.mkdirSites]) ++
          (if cfg.siteDirExists then [Ev.rmSiteDir] else [])).length = 2 from by omega,
      List.get?_append (by simp)]
    rfl
  · intro k e hk hsub
    have hk2 : ((genTrace cfg) ++ rest).get? k = some e := by
      rw [← hext]
      exact hk
    by_cases hlt : k < (genTrace cfg).length
    · exfalso
      rw [List.get?_append hlt] at hk2
      have hmem := List.get?_mem hk2
      have hfalse := genTrace_no_subtree cfg e hmem
      rw [hsub] at hfalse
      simp at hfalse
    · omega

/-- Claim C2 (code bug): in `cfgC`'s run the "site ready" signal fires before
the run's single ImageJob is even created, the only snapshot of the job
collection that is awaited is empty, and the job settles strictly after the
signal — completion is declared without awaiting the job. -/
theorem C2_done_before_settle :
    ((runApp cfgC [SchedLabel.runEpic 0, SchedLabel.runDownload 0]).trace.filter
        Ev.isCaptureEv = [Ev.captureJobs []]) ∧
    ((runApp cfgC [SchedLabel.runEpic 0, SchedLabel.runDownload 0]).trace.findIdx
        Ev.isDoneSignal <
      (runApp cfgC [SchedLabel.runEpic 0, SchedLabel.runDownload 0]).trace.findIdx
        Ev.isJobCreatedEv) ∧
    ((runApp cfgC [SchedLabel.runEpic 0, SchedLabel.runDownload 0]).trace.findIdx
        Ev.isJobCreatedEv <
      (runApp cfgC [SchedLabel.runEpic 0, SchedLabel.runDownload 0]).trace.findIdx
        Ev.isSettledEv) ∧
    ((runApp cfgC [SchedLabel.runEpic 0, SchedLabel.runDownload 0]).trace.findIdx
        Ev.isSettledEv <
      (runApp cfgC [SchedLabel.runEpic 0, SchedLabel.runDownload 0]).trace.length) := by
  decide

/-- Claim C3, counterexample: a description holding two media-host image
references on one line. The description contains an image reference whose URL
is on the media host, yet that URL survives verbatim in `parseDescription`'s
output (the greedy regex folds it into the alt text of the single match it
makes per line). -/
theorem C3_counterexample :
    ((imgRef "a".data (mediaHost ++ "x.png".data)) <:+:
      ("![a](https://media.app.shortcut.com/x.png) " ++
        "![b](https://media.app.shortcut.com/y.png)").data) ∧
    mediaHost.isPrefixOf (mediaHost ++ "x.png".data) = true ∧
    ((mediaHost ++ "x.png".data) <:+:
      (parseDescription entropy0
        ("![a](https://media.app.shortcut.com/x.png) " ++
          "![b](https://media.app.shortcut.com/y.png)")
        ScanSt.init).1.data) := by
  refine ⟨?_, ?_, ?_⟩ <;> decide

theorem mem_imgRef {c : Char} {alt src : List Char} (h : c ∈ imgRef alt src) :
    c ∈ alt ∨ c ∈ src ∨ c = '!' ∨ c = '[' ∨ c = ']' ∨ c = '(' ∨ c = ')' := by
  unfold imgRef at h
  simp only [List.mem_append, List.mem_cons, List.mem_singleton,
    List.not_mem_nil, or_false] at h
  tauto

/-- `path.parse(url).ext` never contains a slash: it is cut from the
basename, the text after the last slash. -/
theorem slash_not_mem_extOf (url : List Char) : '/' ∉ extOf url := by
  intro h
  rcases mem_extOf h with h1 | h1
  · exact absurd h1 (by decide)
  · unfold afterLast at h1
    rw [List.mem_reverse] at h1
    have h2 := List.mem_takeWhile_imp h1
    simp at h2

/-- A two-character pattern inside a concatenation lies in the left part, in
the right part, or exactly across the boundary. -/
theorem pair_infix_append {c d : Char} {x y : List Char}
    (h : [c, d] <:+: x ++ y) :
    [c, d] <:+: x ∨ [c, d] <:+: y ∨
      (x.getLast? = some c ∧ y.head? = some d) := by
  induction x with
  | nil =>
    rw [List.nil_append] at h
    exact Or.inr (Or.inl h)
  | cons e xs ih =>
    obtain ⟨s, t, hst⟩ := h
    cases s with
    | nil =>
      simp only [List.nil_append, List.cons_append, List.cons.injEq] at hst
      obtain ⟨hce, hrest⟩ := hst
      cases xs with
      | nil =>
        rw [List.nil_append] at hrest
        refine Or.inr (Or.inr ⟨?_, ?_⟩)
        · rw [hce]
          rfl
        · rw [← hrest]
          rfl
      | cons f xs2 =>
        rw [List.cons_append] at hrest
        have hdf : d = f := ((List.cons.injEq _ _ _ _).mp hrest).1
        refine Or.inl ⟨[], xs2, ?_⟩
        rw [hce, hdf]
        rfl
    | cons e2 s2 =>
      simp only [List.cons_append, List.cons.injEq] at hst
      obtain ⟨_, hst2⟩ := hst
      rcases ih ⟨s2, t, hst2⟩ with h1 | h1 | h1
      · exact Or.inl (List.infix_cons h1)
      · exact Or.inr (Or.inl h1)
      · refine Or.inr (Or.inr ⟨?_, h1.2⟩)
        cases xs with
        | nil =>
          have h2 := h1.1
          simp at h2
        | cons f xs2 =>
          rw [List.getLast?_cons_cons]
          exact h1.1

/-- Claim C3, amended: for a description whose single line holds exactly one
cleanly delimited media-host image reference — no other `'!'` before it, no
`')'` after it, no `']'` and no line terminator in the matched region, no
colon outside the URL — the output relocates the reference to
`/imgs/<stem><ext>` with a 32-character lowercase-hex stem, and the media-host
URL does not appear in the output. -/
theorem C3_media_relocated (entropy : Nat → List Nat) (st : ScanSt)
    (a alt r b : List Char)
    (ha : '!' ∉ a) (hb : ')' ∉ b) (hr1 : ']' ∉ r)
    (hn : '\n' ∉ a ++ imgRef alt (mediaHost ++ r) ++ b)
    (hterm : ∀ c ∈ alt ++ r, isLineTerm c = false)
    (hc1 : ':' ∉ a) (hc2 : ':' ∉ alt) (hc3 : ':' ∉ b)
    (hlen : (entropy st.ctr).length = 16)
    (hval : ∀ y ∈ entropy st.ctr, y < 256) :
    (parseDescription entropy (a ++ imgRef alt (mediaHost ++ r) ++ b).asString st).1 =
      (a ++ imgRef alt ("/imgs/".data ++ hexOfBytes (entropy st.ctr) ++
        extOf (mediaHost ++ r)) ++ b).asString ∧
    (hexOfBytes (entropy st.ctr)).length = 32 ∧
    (∀ c ∈ hexOfBytes (entropy st.ctr), isHexChar c = true) ∧
    ¬ (mediaHost ++ r) <:+:
      (parseDescription entropy (a ++ imgRef alt (mediaHost ++ r) ++ b).asString
        st).1.data := by
  have hm : mediaHost.isPrefixOf (mediaHost ++ r) = true :=
    List.isPrefixOf_iff_prefix.mpr (List.prefix_append _ _)
  have hu1 : ']' ∉ mediaHost ++ r := by
    intro h
    rcases List.mem_append.mp h with h1 | h1
    · exact absurd h1 (by decide)
    · exact hr1 h1
  have hu2 : mediaHost ++ r ≠ [] := by simp [mediaHost]
  have heq := parseDescription_single entropy st ha hb hu1 hu2 hn
  rw [if_pos hm] at heq
  have hout1 : (parseDescription entropy
      (a ++ imgRef alt (mediaHost ++ r) ++ b).asString st).1 =
      (a ++ mediaRepl entropy st alt (mediaHost ++ r) ++ b).asString := by
    rw [heq]
  have harg : mediaRepl entropy st alt (mediaHost ++ r) =
      imgRef alt ("/imgs/".data ++ hexOfBytes (entropy st.ctr) ++
        extOf (mediaHost ++ r)) := rfl
  refine ⟨by rw [hout1, harg], by rw [length_hexOfBytes, hlen],
    fun c hc => mem_hexOfBytes hval hc, ?_⟩
  rw [hout1, harg, data_asString]
  intro hinf
  have hcs : [':', '/'] <:+: mediaHost ++ r :=
    ⟨"https".data, "/media.app.shortcut.com/".data ++ r, by rfl⟩
  have hpair := hcs.trans hinf
  have hsplit : a ++ imgRef alt ("/imgs/".data ++ hexOfBytes (entropy st.ctr) ++
      extOf (mediaHost ++ r)) ++ b =
      (a ++ ('!' :: '[' :: (alt ++ (']' :: '(' :: ("/imgs/".data ++
        hexOfBytes (entropy st.ctr)))))) ++
      (extOf (mediaHost ++ r) ++ (')' :: b)) := by
    simp [imgRef, List.append_assoc]
  rw [hsplit] at hpair
  have hcolonL : (':' : Char) ∉ a ++ ('!' :: '[' :: (alt ++ (']' :: '(' ::
      ("/imgs/".data ++ hexOfBytes (entropy st.ctr))))) := by
    intro h
    rcases List.mem_append.mp h with h1 | h1
    · exact hc1 h1
    · rcases List.mem_cons.mp h1 with h2 | h2
      · exact absurd h2 (by decide)
      · rcases List.mem_cons.mp h2 with h3 | h3
        · exact absurd h3 (by decide)
        · rcases List.mem_append.mp h3 with h4 | h4
          · exact hc2 h4
          · rcases List.mem_cons.mp h4 with h5 | h5
            · exact absurd h5 (by decide)
            · rcases List.mem_cons.mp h5 with h6 | h6
              · exact absurd h6 (by decide)
              · rcases List.mem_append.mp h6 with h7 | h7
                · exact absurd h7 (by decide)
                · exact mem_hex_ne_colon (mem_hexOfBytes hval h7) rfl
  rcases pair_infix_append hpair with h1 | h1 | h1
  · exact hcolonL (h1.subset (by decide))
  · rcases pair_infix_append h1 with h2 | h2 | h2
    · exact slash_not_mem_extOf (mediaHost ++ r) (h2.subset (by decide))
    · have h3 : (':' : Char) ∈ ')' :: b := h2.subset (by decide)
      rcases List.mem_cons.mp h3 with h4 | h4
      · exact absurd h4 (by decide)
      · exact hc3 h4
    · have h4 := h2.2
      rw [List.head?_cons] at h4
      injection h4 with h5
      exact absurd h5 (by decide)
  · exact hcolonL (List.mem_of_getLast?_eq_some h1.1)

/-- Claim C3, witness: the amended theorem applied to the single-reference
description `![a](https://media.app.shortcut.com/x.png)` with all-zero entropy
draws. -/
theorem C3_witness :
    ((parseDescription entropy0
        (([] : List Char) ++ imgRef "a".data (mediaHost ++ "x.png".data) ++
          []).asString ScanSt.init).1 =
      (([] : List Char) ++ imgRef "a".data
        ("/imgs/".data ++ hexOfBytes (entropy0 ScanSt.init.ctr) ++
          extOf (mediaHost ++ "x.png".data)) ++ []).asString) ∧
    (hexOfBytes (entropy0 ScanSt.init.ctr)).length = 32 ∧
    (∀ c ∈ hexOfBytes (entropy0 ScanSt.init.ctr), isHexChar c = true) ∧
    ¬ (mediaHost ++ "x.png".data) <:+:
      (parseDescription entropy0
        (([] : List Char) ++ imgRef "a".data (mediaHost ++ "x.png".data) ++
          []).asString ScanSt.init).1.data :=
  C3_media_relocated entropy0 ScanSt.init [] "a".data "x.png".data []
    (by decide) (by decide) (by decide) (by decide) (by decide) (by decide)
    (by decide) (by decide) rfl (by decide)

/-- Claim C4: every image-reference match of `parseDescription` whose source
URL is not on the remote media host is rewritten to itself, and its URL
appears verbatim in the rendered output. -/
theorem C4_nonmedia_preserved (entropy : Nat → List Nat) (desc : String)
    (m : ImgMatch)
    (hm : m ∈ (parseDescription entropy desc ScanSt.init).2.ms)
    (hnon : ¬ mediaHost.isPrefixOf m.src = true) :
    m.out = imgRef m.alt m.src ∧
    m.src <:+: (parseDescription entropy desc ScanSt.init).1.data := by
  rcases parseDescription_ms_covered entropy desc ScanSt.init m hm with
    h | ⟨hi, h2, h3⟩
  · simp [ScanSt.init] at h
  · have hout := h2 hnon
    refine ⟨hout, ?_⟩
    have hsrc : m.src <:+: imgRef m.alt m.src :=
      ⟨'!' :: '[' :: (m.alt ++ [']', '(']), [')'], by simp [imgRef]⟩
    exact hsrc.trans (hout ▸ hi)

/-- Claim C4, witness: the non-media reference
`![alt](http://example.com/pic.png)` passes through unchanged. -/
theorem C4_witness :
    (ImgMatch.mk "alt".data "http://example.com/pic.png".data
        (imgRef "alt".data "http://example.com/pic.png".data)).out =
      imgRef (ImgMatch.mk "alt".data "http://example.com/pic.png".data
        (imgRef "alt".data "http://example.com/pic.png".data)).alt
        (ImgMatch.mk "alt".data "http://example.com/pic.png".data
          (imgRef "alt".data "http://example.com/pic.png".data)).src ∧
    (ImgMatch.mk "alt".data "http://example.com/pic.png".data
        (imgRef "alt".data "http://example.com/pic.png".data)).src <:+:
      (parseDescription entropy0 "![alt](http://example.com/pic.png)"
        ScanSt.init).1.data :=
  C4_nonmedia_preserved entropy0 "![alt](http://example.com/pic.png)"
    (ImgMatch.mk "alt".data "http://example.com/pic.png".data
      (imgRef "alt".data "http://example.com/pic.png".data))
    (by decide) (by decide)

/-- Claim C5: in every run that does not abort and whose scheduler delivers
epic `i`'s responses, the run finishes without error; if the epic's
description is empty its page is written with an empty rendered segment, and
every story of the epic with an empty or missing description gets its page
written with an empty rendered segment. -/
theorem C5_empty_desc_pages (cfg : Config) (sched : List SchedLabel) (i : Nat)
    (epic : EpicData)
    (hget : cfg.remote.epics.get? i = some epic)
    (hin : SchedLabel.runEpic i ∈ sched)
    (hfs : cfg.siteDirExists = false ∨ cfg.rmFails = false) :
    (runApp cfg sched).genErr = false ∧ (runApp cfg sched).isDone = true ∧
    (epic.description = "" →
      Ev.writeEpic epic.id (epicHtml cfg.site cfg.remote.epics epic "") ∈
        (runApp cfg sched).trace) ∧
    (∀ story ∈ epic.stories, jsOr story.description "" = "" →
      Ev.writeStory epic.id story.id
        (storyHtml cfg.site cfg.remote.epics epic story "") ∈
        (runApp cfg sched).trace) := by
  have hgen : (runGen cfg).genErr = false := by
    rw [(runGen_sc cfg).2.2.2.1]
    rcases hfs with h | h <;> simp [h]
  have hdone : EpicDone cfg epic (runApp cfg sched).sc.evs := by
    refine epic_events cfg i epic hget sched (runGen cfg) hgen (Or.inl hin) ?_
    intro h
    rw [(runGen_sc cfg).2.1] at h
    exact absurd h (List.not_mem_nil _)
  obtain ⟨⟨r1, hmem1, hr1⟩, hst⟩ := hdone
  refine ⟨?_, ?_, ?_, ?_⟩
  · rw [(runApp_flags cfg sched).2, (runGen_sc cfg).2.2.2.1]
    rcases hfs with h | h <;> simp [h]
  · rw [(runApp_flags cfg sched).1, (runGen_sc cfg).2.2.2.2]
    rcases hfs with h | h <;> simp [h]
  · intro hd
    have := hr1 hd
    subst this
    exact hmem1
  · intro story hs hd
    obtain ⟨r2, hmem2, hr2⟩ := hst story hs
    have := hr2 hd
    subst this
    exact hmem2

/-- Claim C5, witness: the empty-description epic and story of `cfgE` both get
their pages written with empty rendered segments, with no error. -/
theorem C5_witness :
    (runApp cfgE [SchedLabel.runEpic 0]).genErr = false ∧
    (runApp cfgE [SchedLabel.runEpic 0]).isDone = true ∧
    (epicE.description = "" →
      Ev.writeEpic epicE.id (epicHtml cfgE.site cfgE.remote.epics epicE "") ∈
        (runApp cfgE [SchedLabel.runEpic 0]).trace) ∧
    (∀ story ∈ epicE.stories, jsOr story.description "" = "" →
      Ev.writeStory epicE.id story.id
        (storyHtml cfgE.site cfgE.remote.epics epicE story "") ∈
        (runApp cfgE [SchedLabel.runEpic 0]).trace) :=
  C5_empty_desc_pages cfgE [SchedLabel.runEpic 0] 0 epicE rfl
    (by decide) (Or.inl rfl)

/-- Claim C6: every job of a run carries the filename `downloadImage` returned
at creation: a 32-character lowercase-hex stem (16 entropy bytes in hex)
concatenated with the URL's extension, with stems of distinct draws distinct;
and every settlement of a job's transfer — successful or not — happens
strictly after the job's creation put that filename in the trace. -/
theorem C6_filename_formula (cfg : Config) (sched : List SchedLabel)
    (j1 j2 : Nat) (jb1 jb2 : Job)
    (hg1 : (runApp cfg sched).sc.jobs.get? j1 = some jb1)
    (hg2 : (runApp cfg sched).sc.jobs.get? j2 = some jb2)
    (hlen : (cfg.entropy j1).length = 16)
    (hv1 : ∀ y ∈ cfg.entropy j1, y < 256)
    (hv2 : ∀ y ∈ cfg.entropy j2, y < 256)
    (hne : j1 ≠ j2 → cfg.entropy j1 ≠ cfg.entropy j2) :
    jb1.filename = hexOfBytes (cfg.entropy j1) ++ extOf jb1.url ∧
    (hexOfBytes (cfg.entropy j1)).length = 32 ∧
    (∀ c ∈ hexOfBytes (cfg.entropy j1), isHexChar c = true) ∧
    (j1 ≠ j2 → hexOfBytes (cfg.entropy j1) ≠ hexOfBytes (cfg.entropy j2)) ∧
    (∀ n ok, (runApp cfg sched).trace.get? n =
        some (Ev.jobSettled jb1.filename ok) →
      ∃ m u, m < n ∧ (runApp cfg sched).trace.get? m =
        some (Ev.jobCreated u jb1.filename)) := by
  have hI := inv_runApp cfg sched
  refine ⟨hI.fname j1 jb1 hg1, by rw [length_hexOfBytes, hlen],
    fun c hc => mem_hexOfBytes hv1 hc, ?_, ?_⟩
  · intro hj hcon
    exact hne hj (hexOfBytes_inj hv1 hv2 hcon)
  · intro n ok h
    exact hI.settle_late n _ ok h

/-- Claim C6, witness: the two jobs of `cfgW`'s run carry distinct 32-hex
stems with extension `.png`. -/
theorem C6_witness :
    jbW1.filename = hexOfBytes (cfgW.entropy 0) ++ extOf jbW1.url ∧
    (hexOfBytes (cfgW.entropy 0)).length = 32 ∧
    (∀ c ∈ hexOfBytes (cfgW.entropy 0), isHexChar c = true) ∧
    ((0 : Nat) ≠ 1 → hexOfBytes (cfgW.entropy 0) ≠ hexOfBytes (cfgW.entropy 1)) ∧
    (∀ n ok, (runApp cfgW [SchedLabel.runEpic 0,
        SchedLabel.runDownload 0]).trace.get? n =
        some (Ev.jobSettled jbW1.filename ok) →
      ∃ m u, m < n ∧ (runApp cfgW [SchedLabel.runEpic 0,
        SchedLabel.runDownload 0]).trace.get? m =
        some (Ev.jobCreated u jbW1.filename)) :=
  C6_filename_formula cfgW [SchedLabel.runEpic 0, SchedLabel.runDownload 0]
    0 1 jbW1
    ⟨"https://media.app.shortcut.com/y.png".data,
      "01000000000000000000000000000000.png".data⟩
    (by decide) (by decide) rfl (by decide) (by decide) (fun _ => by decide)

/-- Claim C7: a job whose download fails leaves no `writeImg` event in the
trace, the run still completes with no error, and a page referencing
`/imgs/<filename>` is written all the same. -/
theorem C7_failed_download_swallowed (cfg : Config) (sched : List SchedLabel)
    (j : Nat) (jb : Job)
    (hg : (runApp cfg sched).sc.jobs.get? j = some jb)
    (hfail : cfg.imgOk jb.url = false)
    (hlen : ∀ k, (cfg.entropy k).length = 16)
    (hval : ∀ k, ∀ y ∈ cfg.entropy k, y < 256)
    (hinj : ∀ k1 k2, k1 < (runApp cfg sched).sc.jobs.length →
      k2 < (runApp cfg sched).sc.jobs.length →
      cfg.entropy k1 = cfg.entropy k2 → k1 = k2)
    (hfs : cfg.siteDirExists = false ∨ cfg.rmFails = false) :
    Ev.writeImg jb.filename ∉ (runApp cfg sched).trace ∧
    (runApp cfg sched).genErr = false ∧ (runApp cfg sched).isDone = true ∧
    ∃ e, e ∈ (runApp cfg sched).trace ∧ e.isPageWrite = true ∧
      ("/imgs/".data ++ jb.filename) <:+: (contentOf e).data := by
  have hI := inv_runApp cfg sched
  have hjlt : j < (runApp cfg sched).sc.jobs.length := by
    by_contra hc
    push_neg at hc
    rw [List.get?_eq_none.mpr hc] at hg
    cases hg
  refine ⟨?_, ?_, ?_, hI.covered jb (List.get?_mem hg)⟩
  · intro hmem
    obtain ⟨jb2, hjb2, hfn, hok⟩ := hI.img_ok jb.filename hmem
    obtain ⟨k2, hk2⟩ := List.get?_of_mem hjb2
    have hklt : k2 < (runApp cfg sched).sc.jobs.length := by
      by_contra hc
      push_neg at hc
      rw [List.get?_eq_none.mpr hc] at hk2
      cases hk2
    have f1 := hI.fname j jb hg
    have f2 := hI.fname k2 jb2 hk2
    have heq : hexOfBytes (cfg.entropy k2) ++ extOf jb2.url =
        hexOfBytes (cfg.entropy j) ++ extOf jb.url := by
      rw [← f1, ← f2, hfn]
    have hlens : (hexOfBytes (cfg.entropy k2)).length =
        (hexOfBytes (cfg.entropy j)).length := by
      rw [length_hexOfBytes, length_hexOfBytes, hlen, hlen]
    have hhex := (List.append_inj heq hlens).1
    have hkj : k2 = j := hinj k2 j hklt hjlt
      (hexOfBytes_inj (hval k2) (hval j) hhex)
    rw [hkj, hg] at hk2
    have hjj : jb2 = jb := by
      injection hk2 with h
      exact h.symm
    rw [hjj] at hok
    rw [hfail] at hok
    cases hok
  · rw [(runApp_flags cfg sched).2, (runGen_sc cfg).2.2.2.1]
    rcases hfs with h | h <;> simp [h]
  · rw [(runApp_flags cfg sched).1, (runGen_sc cfg).2.2.2.2]
    rcases hfs with h | h <;> simp [h]

/-- Claim C7, witness: the failing download of `cfgW`'s first job writes no
image file, yet the epic page referencing it is written and the run completes
with no error. -/
theorem C7_witness :
    Ev.writeImg jbW1.filename ∉
      (runApp cfgW [SchedLabel.runEpic 0, SchedLabel.runDownload 0]).trace ∧
    (runApp cfgW [SchedLabel.runEpic 0, SchedLabel.runDownload 0]).genErr =
      false ∧
    (runApp cfgW [SchedLabel.runEpic 0, SchedLabel.runDownload 0]).isDone =
      true ∧
    ∃ e, e ∈ (runApp cfgW [SchedLabel.runEpic 0,
        SchedLabel.runDownload 0]).trace ∧ e.isPageWrite = true ∧
      ("/imgs/".data ++ jbW1.filename) <:+: (contentOf e).data :=
  C7_failed_download_swallowed cfgW
    [SchedLabel.runEpic 0, SchedLabel.runDownload 0] 0 jbW1
    (by decide) rfl (fun _ => rfl)
    (by
      intro k y hy
      have hy2 : y ∈ k % 256 :: List.replicate 15 0 := hy
      rcases List.mem_cons.mp hy2 with h | h
      · subst h
        exact Nat.mod_lt _ (by omega)
      · rw [List.eq_of_mem_replicate h]
        omega)
    (by
      intro k1 k2 h1 h2 he
      have hl : (runApp cfgW [SchedLabel.runEpic 0,
          SchedLabel.runDownload 0]).sc.jobs.length = 2 := by decide
      rw [hl] at h1 h2
      have he2 : k1 % 256 :: List.replicate 15 0 =
          k2 % 256 :: List.replicate 15 0 := he
      have hm : k1 % 256 = k2 % 256 := (List.cons.injEq _ _ _ _).mp he2 |>.1
      omega)
    (Or.inl rfl)

/-- Claim C8: when the removal of the site's existing output directory fails,
the error propagates (`generateSite` rejects, completion is never signalled)
and not a single page write appears in the trace. -/
theorem C8_rm_failure_atomic (cfg : Config) (sched : List SchedLabel)
    (h1 : cfg.siteDirExists = true) (h2 : cfg.rmFails = true) :
    (runApp cfg sched).genErr = true ∧
    (runApp cfg sched).isDone = false ∧
    ∀ e ∈ (runApp cfg sched).trace, e.isPageWrite = false := by
  have herr := runApp_err cfg h1 h2 sched
  rw [herr]
  obtain ⟨hsc, _, _, hg, hd⟩ := runGen_sc cfg
  refine ⟨by rw [hg, h1, h2]; rfl, by rw [hd, h1, h2]; rfl, ?_⟩
  intro e he
  have htr : (runGen cfg).trace = genTrace cfg := by
    unfold St.trace
    rw [hsc]
  rw [htr] at he
  unfold genTrace at he
  have hboth : cfg.siteDirExists = true ∧ cfg.rmFails = true := ⟨h1, h2⟩
  rw [if_pos hboth] at he
  rcases List.mem_append.mp he with h | h
  · rcases List.mem_append.mp h with h3 | h3
    · by_cases hsd : cfg.sitesDirExists = true
      · rw [if_pos hsd] at h3
        exact absurd h3 (List.not_mem_nil _)
      · rw [if_neg hsd] at h3
        have h4 := List.mem_singleton.mp h3
        rw [h4]
        rfl
    · rw [if_pos h1] at h3
      have h4 := List.mem_singleton.mp h3
      rw [h4]
      rfl
  · exact absurd h (List.not_mem_nil _)

/-- Claim C8, witness: `cfgErr`'s run (site directory present, removal
failing) aborts with the error propagated and writes no page. -/
theorem C8_witness :
    (runApp cfgErr [SchedLabel.runEpic 0, SchedLabel.runDownload 0]).genErr =
      true ∧
    (runApp cfgErr [SchedLabel.runEpic 0, SchedLabel.runDownload 0]).isDone =
      false ∧
    ∀ e ∈ (runApp cfgErr [SchedLabel.runEpic 0,
        SchedLabel.runDownload 0]).trace, e.isPageWrite = false :=
  C8_rm_failure_atomic cfgErr [SchedLabel.runEpic 0, SchedLabel.runDownload 0]
    rfl rfl

/-- Claim C9: in every run, every story-page write is preceded in the trace by
the write of its epic's page. -/
theorem C9_epic_before_story (cfg : Config) (sched : List SchedLabel)
    (n eid sid : Nat) (c : String)
    (h : (runApp cfg sched).trace.get? n = some (Ev.writeStory eid sid c)) :
    ∃ m c2, m < n ∧
      (runApp cfg sched).trace.get? m = some (Ev.writeEpic eid c2) :=
  (inv_runApp cfg sched).story_after n eid sid c h

/-- Claim C9, witness: in `cfgC`'s run the story page at trace index 11 is
preceded by its epic's page write. -/
theorem C9_witness :
    ∃ m c2, m < 11 ∧
      (runApp cfgC [SchedLabel.runEpic 0]).trace.get? m =
        some (Ev.writeEpic 7 c2) :=
  C9_epic_before_story cfgC [SchedLabel.runEpic 0] 11 7 9
    (storyHtml cfgC.site cfgC.remote.epics epicC storyC "")
    (by set_option maxRecDepth 2048 in rfl)

/-- Claim C10: every job creation in a trace is immediately preceded by the
synchronous `imgs/` directory creation of the same `downloadImage` call, and
every settlement of that job's transfer is preceded by an `imgs/` directory
creation. -/
theorem C10_imgs_dir_first (cfg : Config) (sched : List SchedLabel)
    (n : Nat) (u f : List Char)
    (h : (runApp cfg sched).trace.get? n = some (Ev.jobCreated u f)) :
    (1 ≤ n ∧ (runApp cfg sched).trace.get? (n - 1) = some Ev.ensureImgsDir) ∧
    ∀ m ok, (runApp cfg sched).trace.get? m = some (Ev.jobSettled f ok) →
      ∃ n2, n2 < m ∧
        (runApp cfg sched).trace.get? n2 = some Ev.ensureImgsDir := by
  have hI := inv_runApp cfg sched
  refine ⟨hI.ensure_adj n u f h, ?_⟩
  intro m ok hm
  obtain ⟨m2, u2, hlt, hc⟩ := hI.settle_late m f ok hm
  obtain ⟨hm1, hm2⟩ := hI.ensure_adj m2 u2 f hc
  exact ⟨m2 - 1, by omega, hm2⟩

/-- Claim C10, witness: in `cfgC`'s run the job created at trace index 8 is
preceded at index 7 by the `imgs/` directory creation, which also precedes the
failed settlement at index 12. -/
theorem C10_witness :
    (1 ≤ 8 ∧ (runApp cfgC [SchedLabel.runEpic 0,
        SchedLabel.runDownload 0]).trace.get? (8 - 1) =
      some Ev.ensureImgsDir) ∧
    ∀ m ok, (runApp cfgC [SchedLabel.runEpic 0,
        SchedLabel.runDownload 0]).trace.get? m =
        some (Ev.jobSettled "00000000000000000000000000000000.png".data ok) →
      ∃ n2, n2 < m ∧
        (runApp cfgC [SchedLabel.runEpic 0,
          SchedLabel.runDownload 0]).trace.get? n2 =
          some Ev.ensureImgsDir :=
  C10_imgs_dir_first cfgC [SchedLabel.runEpic 0, SchedLabel.runDownload 0] 8
    "https://media.app.shortcut.com/x.png".data
    "00000000000000000000000000000000.png".data (by decide)

/-- Claim C1, witness: the amended ordering at the concrete run `cfgC`. -/
theorem C1_witness :
    ∃ i j c, i < j ∧
      (runApp cfgC [SchedLabel.runEpic 0]).trace.get? i =
        some (Ev.writeHome c) ∧
      (runApp cfgC [SchedLabel.runEpic 0]).trace.get? j =
        some Ev.resolveGenerate ∧
      ∀ k e, (runApp cfgC [SchedLabel.runEpic 0]).trace.get? k = some e →
        e.isSubtreeEv = true → j < k :=
  C1_resolve_after_home cfgC [SchedLabel.runEpic 0] (Or.inl rfl)

end Shortcut
